import Mathlib

/-!
Verification development for the random-crystal generator core
(pyxtal/crystal.py and pyxtal/constants.py).

The rational-number definitions below embed the integer and comparison
logic of the source; real-number definitions embed the floating-point
geometry (floats are modelled as exact reals).  Helpers that live in
modules outside the two source files (pyxtal.operations,
pyxtal.symmetry, pyxtal.database) are either taken as parameters or
modelled from the spec, as noted on each definition.
-/

namespace PyXtal

/-! ## Module constants

crystal.py lines 86 to 90 define its own module-level constants; the
separate module pyxtal/constants.py declares different values and is
not imported by crystal.py. -/

/-- Separation tolerance in Angstroms, crystal.py line 86. -/
def crystal_tol_m : ℚ := 1

/-- Attempts for generating lattices, crystal.py line 87. -/
def crystal_max1 : ℕ := 30

/-- Attempts for a given lattice, crystal.py line 88. -/
def crystal_max2 : ℕ := 30

/-- Attempts for a given Wyckoff position, crystal.py line 89. -/
def crystal_max3 : ℕ := 30

/-- Minimum vector length, crystal.py line 90. -/
def crystal_minvec : ℚ := 2

/-- Separation tolerance in Angstroms, constants.py line 3. -/
def constants_tol_m : ℚ := 3/10

/-- Attempts for generating lattices, constants.py line 4. -/
def constants_max1 : ℕ := 40

/-- Attempts for a given lattice, constants.py line 5. -/
def constants_max2 : ℕ := 10

/-- Attempts for a given Wyckoff position, constants.py line 6. -/
def constants_max3 : ℕ := 10

/-- Minimum vector length, constants.py line 8. -/
def constants_minvec : ℚ := 1

/-- Default keyword arguments of random_crystal.generate_crystal
(crystal.py line 1095): the def line max1=max1, max2=max2, max3=max3
captures the module-level values of crystal.py. -/
def generate_crystal_default_budgets : ℕ × ℕ × ℕ :=
  (crystal_max1, crystal_max2, crystal_max3)

/-! ## cellsize (crystal.py lines 366 to 388)

The source first maps the space-group number to its international
symbol through sg_symbol_from_int_number (external symmetry database,
not under src/) and then dispatches on the first letter; we embed the
dispatch on the letter.  The error branch returns a string in the
source; we model it as none. -/

/-- Dispatch of cellsize on the centering letter of the international
symbol, crystal.py lines 378 to 388.  The source returns an error
string when the letter is none of P, A, C, I, R, F; that branch is
modelled as none. -/
def cellsize_letter (letter : Char) : Option ℕ :=
  if letter = 'P' then some 1
  else if letter = 'A' ∨ letter = 'C' ∨ letter = 'I' then some 2
  else if letter = 'R' then some 3
  else if letter = 'F' then some 4
  else none

/-! ## check_compatible (crystal.py lines 1053 to 1093)

A Wyckoff position is represented by the list of the rotation matrices
of its operations (the translations play no role in check_compatible);
a rotation matrix is a list of rows of rationals.  wyckoffs_organized
is the list of multiplicity groups, largest multiplicity first, each
group a list of Wyckoff positions. -/

/-- Rotation matrix of a symmetry operation, as a list of rows. -/
abbrev RotMat := List (List ℚ)

/-- A Wyckoff position: the rotation matrices of its operations.  Its
multiplicity is the length of the list. -/
abbrev WyPos := List RotMat

/-- Models the numpy expression rotation_matrix.all() of crystal.py
line 1070: true exactly when every entry is nonzero. -/
def matAllNonzero (m : RotMat) : Bool :=
  m.all (fun row => row.all (fun x => decide (x ≠ 0)))

/-- Models np.allclose(rotation_matrix, np.zeros([3,3])) of crystal.py
line 1082: every entry within the numpy absolute tolerance of zero. -/
def matAllClose0 (m : RotMat) : Bool :=
  m.all (fun row => row.all (fun x => decide (|x| ≤ 1/100000000)))

/-- The inner while loop of check_compatible (crystal.py lines 1078 to
1086): repeatedly subtract the multiplicity of wp from the remaining
count while the count allows it and wp has not been removed; a wp
whose first rotation is close to zero is removed after one use,
otherwise the has_freedom flag is set.  The fuel argument bounds the
iterations; remaining + 1 units suffice for every Wyckoff position of
positive multiplicity, matching the source, whose loop always
terminates on such input. -/
def greedy_while (wp : WyPos) : ℕ → ℕ → List WyPos → Bool → ℕ × List WyPos × Bool
  | 0, remaining, removed, hf => (remaining, removed, hf)
  | fuel+1, remaining, removed, hf =>
    if wp.length ≤ remaining ∧ wp ∉ removed then
      if matAllClose0 (wp.headD []) then
        greedy_while wp fuel (remaining - wp.length) (removed ++ [wp]) hf
      else
        greedy_while wp fuel (remaining - wp.length) removed true
    else (remaining, removed, hf)

/-- One Wyckoff position step of the greedy subtraction: runs the
while loop with sufficient fuel. -/
def greedy_wp (st : ℕ × List WyPos × Bool) (wp : WyPos) : ℕ × List WyPos × Bool :=
  greedy_while wp (st.1 + 1) st.1 st.2.1 st.2.2

/-- The two nested for loops of crystal.py lines 1075 to 1086: fold
the greedy subtraction over every Wyckoff position of every
multiplicity group. -/
def greedy_groups (wyorg : List (List WyPos)) (st : ℕ × List WyPos × Bool) :
    ℕ × List WyPos × Bool :=
  wyorg.foldl (fun s x => x.foldl greedy_wp s) st

/-- The three possible results of check_compatible: Python True
(compatible, some degree of freedom), Python 0 (compatible but no
degree of freedom), Python False (incompatible). -/
inductive CompatResult
  | feasibleFree
  | feasibleRigid
  | infeasible
deriving DecidableEq

/-- The loop over species counts in check_compatible (crystal.py lines
1063 to 1088), threading the has_freedom flag and the removed_wyckoffs
accumulator. -/
def check_compatible_loop (wyorg : List (List WyPos)) :
    List ℕ → Bool → List WyPos → CompatResult
  | [], hf, _ => if hf then .feasibleFree else .feasibleRigid
  | numIon :: rest, hf, removed =>
    if numIon % ((wyorg.getLastD []).headD []).length > 0 then .infeasible
    else
      if matAllNonzero (((wyorg.getLastD []).getLastD []).headD []) then
        check_compatible_loop wyorg rest true removed
      else
        let res := greedy_groups wyorg (numIon, removed, hf)
        if res.1 ≠ 0 then .infeasible
        else check_compatible_loop wyorg rest res.2.2 res.2.1

/-- check_compatible, crystal.py lines 1053 to 1093, as a function of
the organized Wyckoff table and the conventional-cell species counts.
N_site of the source appears as the length of the first member of the
relevant group. -/
def check_compatible (wyorg : List (List WyPos)) (numIons : List ℕ) : CompatResult :=
  check_compatible_loop wyorg numIons false []

/-- The identity rotation matrix: the rotation of the first operation
of a fully free Wyckoff position.  It is not the zero matrix, yet its
off-diagonal entries are zero. -/
def idRot : RotMat := [[1,0,0],[0,1,0],[0,0,1]]

/-- Models a matrix being the zero matrix exactly. -/
def matIsZero (m : RotMat) : Bool :=
  m.all (fun row => row.all (fun x => decide (x = 0)))

/-- A Wyckoff position of multiplicity three whose operations all have
identity rotation. -/
def wpMult3 : WyPos := [idRot, idRot, idRot]

/-- A Wyckoff position of multiplicity two whose operations all have
identity rotation. -/
def wpMult2 : WyPos := [idRot, idRot]

/-- A Wyckoff table with two multiplicity groups, of multiplicities
three and two, organized largest first. -/
def wyorgBug : List (List WyPos) := [[wpMult3], [wpMult2]]

/-! ## List indexing helpers

Python and numpy sequence indexing, as structurally recursive
functions. -/

/-- Element at an index with a default, models sequence indexing. -/
def nthD {α : Type} (d : α) : List α → ℕ → α
  | [], _ => d
  | x :: _, 0 => x
  | _ :: xs, i+1 => nthD d xs i

/-- Element at an index, models sequence indexing that may fall out of
range. -/
def nth? {α : Type} : List α → ℕ → Option α
  | [], _ => none
  | x :: _, 0 => some x
  | _ :: xs, i+1 => nth? xs i

/-- In-place update at an index, models Python list assignment; out of
range leaves the list unchanged, which never happens on the inputs the
source builds. -/
def setNth {α : Type} : List α → ℕ → α → List α
  | [], _, _ => []
  | _ :: xs, 0, v => v :: xs
  | x :: xs, i+1, v => x :: setNth xs i v

/-! ## find_short_dist (crystal.py lines 390 to 436)

The source computes d = distance_matrix(coor, coor, lattice, PBC),
where distance_matrix lives in pyxtal.operations (not under src/);
everything after that point uses coor only through d and len(coor) =
len(d), so we take the square distance matrix d as the input. -/

/-- Models np.where(d <= tol) on a two-dimensional array: the index
pairs of the entries at most tol, in row-major order. -/
def np_where_le (d : List (List ℚ)) (tol : ℚ) : List (ℕ × ℕ) :=
  (List.range d.length).flatMap (fun i =>
    ((List.range (nthD [] d i).length).filter
      (fun j => decide (nthD 0 (nthD [] d i) j ≤ tol))).map (fun j => (i, j)))

/-- The pair-collection loop of find_short_dist (crystal.py lines 416
to 420): for each i in np.unique(ijs[0]) the source reads j =
ijs[1][i], using the value i as a position in the column list, and
keeps [i, j, d[i][j]] when j > i.  The row indices of np_where_le come
out in nondecreasing order, so dedup of the first components is
exactly the sorted unique of np.unique.  The out-of-range read that
numpy would raise on is modelled by a default of 0, which the guard
j <= i then always discards; on a distance matrix the diagonal always
qualifies, so the read stays in range in the source. -/
def find_short_dist_pairs (d : List (List ℚ)) (tol : ℚ) : List (ℕ × ℕ × ℚ) :=
  let ijs := np_where_le d tol
  ((ijs.map Prod.fst).dedup).foldl
    (fun acc i =>
      let j := nthD 0 (ijs.map Prod.snd) i
      if j ≤ i then acc else acc ++ [(i, j, nthD 0 (nthD [] d i) j)])
    []

/-- Minimum of a list of rationals with first element as the seed,
models min(pairs[:,-1]). -/
def listMin : List ℚ → ℚ
  | [] => 0
  | x :: xs => xs.foldl min x

/-- The graph-building loop of find_short_dist (crystal.py lines 430
to 434): start from one empty adjacency list per point and append both
directions of every kept pair. -/
def build_graph (n : ℕ) (kept : List (ℕ × ℕ × ℚ)) : List (List ℕ) :=
  kept.foldl
    (fun g p =>
      let g1 := setNth g p.1 (nthD [] g p.1 ++ [p.2.1])
      setNth g1 p.2.1 (nthD [] g1 p.2.1 ++ [p.1]))
    (List.replicate n [])

/-- find_short_dist, crystal.py lines 390 to 436, on the distance
matrix d: collect pairs, keep those within 10^-3 of the smallest
collected distance, and build the adjacency lists. -/
def find_short_dist (d : List (List ℚ)) (tol : ℚ) : List (ℕ × ℕ × ℚ) × List (List ℕ) :=
  let pairs := find_short_dist_pairs d tol
  if pairs ≠ [] then
    let dmin := listMin (pairs.map (fun p => p.2.2)) + 1/1000
    let kept := pairs.filter (fun p => decide (p.2.2 ≤ dmin))
    (kept, build_graph d.length kept)
  else ([], List.replicate d.length [])

/-! ## connected_components (crystal.py lines 438 to 485) -/

/-- The recursive helper add_neighbors of connected_components
(crystal.py lines 456 to 469): iterate over the neighbors of el,
appending each unseen one and recursing from it.  The Python recursion
terminates because the seen list strictly grows; the fuel argument
bounds the recursion depth, and graph.length + 1 units suffice on a
well-formed graph. -/
def add_neighbors (graph : List (List ℕ)) : ℕ → ℕ → List ℕ → List ℕ
  | 0, _, seen => seen
  | fuel+1, el, seen =>
    (nthD [] graph el).foldl
      (fun s x => if x ∈ s then s else add_neighbors graph fuel x (s ++ [x]))
      seen

/-- The while loop of connected_components (crystal.py lines 475 to
484): pop the last unseen index, collect its component, and drop the
component members from the unseen list.  The source removes each
member found in unseen one at a time; on a duplicate-free unseen list
that is the filter below.  The fuel argument counts loop rounds; the
initial unseen length suffices since every round pops an index. -/
def cc_while (graph : List (List ℕ)) : ℕ → List ℕ → List (List ℕ)
  | 0, _ => []
  | _+1, [] => []
  | fuel+1, us@(_ :: _) =>
    let x := us.getLastD 0
    let comp := add_neighbors graph (graph.length + 1) x [x]
    comp :: cc_while graph fuel (us.dropLast.filter (fun y => y ∉ comp))

/-- connected_components, crystal.py lines 438 to 485. -/
def connected_components (graph : List (List ℕ)) : List (List ℕ) :=
  cc_while graph graph.length (List.range graph.length)

/-! ## merge_coordinate (crystal.py lines 487 to 532)

The points, the centroid routine get_center (src, numeric) and the
external check_wyckoff_position (pyxtal.symmetry, not under src/) are
taken as parameters: the merge loop uses the points only through the
distance matrix, the per-component centroid and the Wyckoff lookup, and
the claims settled here concern only the point count and the control
flow.  The lattice and PBC arguments of the source are absorbed into
the distMat parameter.  Wyckoff positions enter only through their
multiplicities, so their operations keep an abstract type. -/

/-- The while True loop of merge_coordinate (crystal.py lines 511 to
532).  The lastIdx argument carries the index and point of the latest
successful Wyckoff identification, which the source reuses when the
following round finds no short pair; it is None on entry.  Running out
of fuel returns none; the termination theorem shows that
coor.length + 1 units of fuel always reach a return. -/
def merge_coordinate {P O : Type} (distMat : List P → List (List ℚ))
    (center : List P → P) (cwp : List P → Option (ℕ × P))
    (wyckoffs : List (List O)) (tol : ℚ) :
    ℕ → List P → Option (ℕ × P) → Option (List P × Option (ℕ × P))
  | 0, _, _ => none
  | fuel+1, coor, lastIdx =>
    let pg := find_short_dist (distMat coor) tol
    if pg.1 ≠ [] then
      if (wyckoffs.getLastD []).length < coor.length then
        let merged := (connected_components pg.2).map
          (fun g => center (g.filterMap (fun i => nth? coor i)))
        match cwp merged with
        | none => some (coor, none)
        | some ip => merge_coordinate distMat center cwp wyckoffs tol fuel merged (some ip)
      else some (coor, none)
    else
      match lastIdx with
      | none => some (coor, cwp coor)
      | some ip => some (coor, some ip)

/-! ## check_distance (crystal.py lines 147 to 193)

The distance matrix of the two coordinate sets is computed by the
external distance_matrix (pyxtal.operations); it is taken as the dm
parameter, with the lattice and PBC arguments absorbed into it.  The
branch converting atomic-symbol strings to radii uses the external
element table and is outside the rational model: tolerances are taken
as rationals directly. -/

/-- check_distance, crystal.py lines 147 to 193: immediately true when
either set has at most one point; otherwise true exactly when no entry
of the distance matrix is below the summed tolerance of its pair. -/
def check_distance {P : Type} (dm : List P → List P → List (List ℚ))
    (coord1 coord2 : List P) (tols1 tols2 : List ℚ) : Bool :=
  if coord1.length ≤ 1 ∨ coord2.length ≤ 1 then true
  else
    let d := dm coord1 coord2
    !((List.range coord1.length).any (fun i =>
        (List.range coord2.length).any (fun j =>
          decide (nthD 0 (nthD [] d i) j < nthD 0 tols1 i + nthD 0 tols2 j))))

/-- The distance matrix of three collinear points at fractional
positions 0, 2/5 and 1/10 along the first axis of the identity
lattice: the minimum-image distances are 2/5, 1/10 and 3/10. -/
def dBug : List (List ℚ) := [[0, 2/5, 1/10], [2/5, 0, 3/10], [1/10, 3/10, 0]]

/-! ## Lattice geometry over the reals

Floating-point numbers of the source are modelled as exact reals. -/

/-- A set of lattice parameters: edge lengths a, b, c in Angstroms and
angles alpha, beta, gamma in radians. -/
structure CellPara where
  a : ℝ
  b : ℝ
  c : ℝ
  alpha : ℝ
  beta : ℝ
  gamma : ℝ

/-- Models math.sqrt of Python, which raises ValueError on a negative
argument: none on negative input, the real square root otherwise. -/
noncomputable def msqrt (x : ℝ) : Option ℝ :=
  if x < 0 then none else some (Real.sqrt x)

/-- The intermediate c1 = c cos(beta) of para2matrix, crystal.py line
269. -/
noncomputable def pm_c1 (p : CellPara) : ℝ := p.c * Real.cos p.beta

/-- The intermediate c2 = c (cos(alpha) - cos(beta) cos(gamma)) /
sin(gamma) of para2matrix, crystal.py line 270. -/
noncomputable def pm_c2 (p : CellPara) : ℝ :=
  p.c * (Real.cos p.alpha - Real.cos p.beta * Real.cos p.gamma) / Real.sin p.gamma

/-- The radicand c^2 - c1^2 - c2^2 under the square root of
para2matrix, crystal.py line 276. -/
noncomputable def radicand (p : CellPara) : ℝ :=
  p.c ^ 2 - pm_c1 p ^ 2 - pm_c2 p ^ 2

/-- para2matrix in the default lower format, crystal.py lines 230 to
276 (radians=True): the a vector along x, the b vector in the xy
plane, the c row completed by the square root of the radicand.  The
result is none exactly when math.sqrt raises on a negative radicand. -/
noncomputable def para2matrix (p : CellPara) : Option (Matrix (Fin 3) (Fin 3) ℝ) :=
  (msqrt (radicand p)).map (fun m22 =>
    Matrix.of ![![p.a, 0, 0],
                ![p.b * Real.cos p.gamma, p.b * Real.sin p.gamma, 0],
                ![pm_c1 p, pm_c2 p, m22]])

/-- Euclidean norm of a row vector, models np.linalg.norm on a
three-vector. -/
noncomputable def vnorm (v : Fin 3 → ℝ) : ℝ :=
  Real.sqrt (v 0 ^ 2 + v 1 ^ 2 + v 2 ^ 2)

/-- Dot product of two row vectors. -/
noncomputable def vdot (v w : Fin 3 → ℝ) : ℝ :=
  v 0 * w 0 + v 1 * w 1 + v 2 * w 2

/-- Modelled from the spec: the angle helper of pyxtal.operations used
by matrix2para is not under src/; the spec states that matrix2para
obtains angles via the arccos of normalized dot products. -/
noncomputable def vangle (v w : Fin 3 → ℝ) : ℝ :=
  Real.arccos (vdot v w / (vnorm v * vnorm w))

/-- matrix2para, crystal.py lines 328 to 364 (radians=True): edge
lengths are row norms, angles are pairwise row angles. -/
noncomputable def matrix2para (m : Matrix (Fin 3) (Fin 3) ℝ) : CellPara :=
  ⟨vnorm (m 0), vnorm (m 1), vnorm (m 2),
   vangle (m 1) (m 2), vangle (m 0) (m 2), vangle (m 0) (m 1)⟩

/-! ## generate_lattice (crystal.py lines 556 to 645) -/

/-- Real cube root as used on the positive values np.cbrt receives in
generate_lattice. -/
noncomputable def cbrt (x : ℝ) : ℝ := x ^ ((1 : ℝ) / 3)

/-- The random draws consumed by one attempt of generate_lattice: the
three components of random_vector, the truncated-Gaussian monoclinic
beta, and the triclinic angles (the source derives the latter from a
random shear matrix through matrix2para, so they land in [0, pi]). -/
structure LatticeSeeds where
  v0 : ℝ
  v1 : ℝ
  v2 : ℝ
  beta : ℝ
  ta : ℝ
  tb : ℝ
  tg : ℝ

/-- The Gram expression 1 - cos(a)^2 - cos(b)^2 - cos(g)^2 +
2 cos(a) cos(b) cos(g) whose square root scales the triclinic cell,
crystal.py line 583. -/
noncomputable def triGram (s : LatticeSeeds) : ℝ :=
  1 - Real.cos s.ta ^ 2 - Real.cos s.tb ^ 2 - Real.cos s.tg ^ 2 +
    2 * (Real.cos s.ta * Real.cos s.tb * Real.cos s.tg)

/-- One attempt of generate_lattice (crystal.py lines 578 to 629): the
six crystal-system branches on the space-group number, producing the
candidate parameter 6-tuple from the random seeds and the target
conventional-cell volume. -/
noncomputable def generate_lattice_attempt (sg : ℕ) (volume : ℝ) (s : LatticeSeeds) :
    CellPara :=
  if sg ≤ 2 then
    let x := Real.sqrt (triGram s)
    let abc := volume / x
    let xyz := s.v0 * s.v1 * s.v2
    ⟨s.v0 * cbrt abc / cbrt xyz, s.v1 * cbrt abc / cbrt xyz,
     s.v2 * cbrt abc / cbrt xyz, s.ta, s.tb, s.tg⟩
  else if sg ≤ 15 then
    let x := Real.sin s.beta
    let abc := volume / x
    let xyz := s.v0 * s.v1 * s.v2
    ⟨s.v0 * cbrt abc / cbrt xyz, s.v1 * cbrt abc / cbrt xyz,
     s.v2 * cbrt abc / cbrt xyz, Real.pi / 2, s.beta, Real.pi / 2⟩
  else if sg ≤ 74 then
    let abc := volume / 1
    let xyz := s.v0 * s.v1 * s.v2
    ⟨s.v0 * cbrt abc / cbrt xyz, s.v1 * cbrt abc / cbrt xyz,
     s.v2 * cbrt abc / cbrt xyz, Real.pi / 2, Real.pi / 2, Real.pi / 2⟩
  else if sg ≤ 142 then
    let c := s.v2 / (s.v0 * s.v1) * cbrt (volume / 1)
    ⟨Real.sqrt ((volume / 1) / c), Real.sqrt ((volume / 1) / c), c,
     Real.pi / 2, Real.pi / 2, Real.pi / 2⟩
  else if sg ≤ 194 then
    let x := Real.sqrt 3 / 2
    let c := s.v2 / (s.v0 * s.v1) * cbrt (volume / x)
    ⟨Real.sqrt ((volume / x) / c), Real.sqrt ((volume / x) / c), c,
     Real.pi / 2, Real.pi / 2, Real.pi / 3 * 2⟩
  else
    let e := volume ^ ((1 : ℝ) / 3)
    ⟨e, e, e, Real.pi / 2, Real.pi / 2, Real.pi / 2⟩

/-- The acceptance check of generate_lattice, crystal.py lines 630 to
641: the maxvec guard followed by the edge, near-degenerate, angle and
ratio bounds. -/
def lattice_accept (p : CellPara) (minvec minangle max_ratio : ℝ) : Prop :=
  minvec < p.a * p.b * p.c / minvec ^ 2 ∧
  p.a > minvec ∧ p.b > minvec ∧ p.c > minvec ∧
  p.a < p.a * p.b * p.c / minvec ^ 2 ∧
  p.b < p.a * p.b * p.c / minvec ^ 2 ∧
  p.c < p.a * p.b * p.c / minvec ^ 2 ∧
  min (p.a * Real.cos (max p.beta p.gamma))
    (min (p.b * Real.cos (max p.alpha p.gamma))
      (p.c * Real.cos (max p.alpha p.beta))) < minvec ∧
  p.alpha > minangle ∧ p.beta > minangle ∧ p.gamma > minangle ∧
  p.alpha < Real.pi - minangle ∧ p.beta < Real.pi - minangle ∧
  p.gamma < Real.pi - minangle ∧
  p.a / p.b < max_ratio ∧ p.a / p.c < max_ratio ∧ p.b / p.c < max_ratio ∧
  p.b / p.a < max_ratio ∧ p.c / p.a < max_ratio ∧ p.c / p.b < max_ratio

section

attribute [local instance] Classical.propDecidable

/-- The retry envelope of generate_lattice (crystal.py lines 577 to
645) over an explicit stream of random seeds, one entry per attempt:
return the first accepted parameter 6-tuple, or none when the stream
of attempts is exhausted. -/
noncomputable def generate_lattice (sg : ℕ) (volume : ℝ)
    (minvec minangle max_ratio : ℝ) : List LatticeSeeds → Option CellPara
  | [] => none
  | s :: rest =>
    let p := generate_lattice_attempt sg volume s
    if lattice_accept p minvec minangle max_ratio then some p
    else generate_lattice sg volume minvec minangle max_ratio rest

end

/-- A unit cube cell parameter tuple: unit edges and right angles. -/
noncomputable def pRight : CellPara :=
  ⟨1, 1, 1, Real.pi / 2, Real.pi / 2, Real.pi / 2⟩

/-- Seeds that drive the cubic branch of generate_lattice_attempt:
unit random-vector components. -/
def unitSeeds : LatticeSeeds := ⟨1, 1, 1, 0, 0, 0, 0⟩

/-- A well-formed adjacency structure: every listed neighbor is a
valid vertex index. -/
def graphWF (g : List (List ℕ)) : Prop :=
  ∀ l ∈ g, ∀ x ∈ l, x < g.length

/-- The facts established about the depth-first state after folding
the neighbor list L from the state s: the state only grows, stays
duplicate free and bounded, absorbs all of L, and every vertex it
gained is closed under adjacency. -/
def DFSBundle (g : List (List ℕ)) (L s R : List ℕ) : Prop :=
  (∃ t, R = s ++ t) ∧ R.Nodup ∧ (∀ a ∈ R, a < g.length) ∧
  (∀ x ∈ L, x ∈ R) ∧ (∀ u ∈ R, u ∉ s → ∀ v ∈ nthD [] g u, v ∈ R)

/-! ## Theorems -/

/-- On a nonnegative radicand, para2matrix returns exactly the lower
triangular matrix with the square root in the corner. -/
theorem para2matrix_eq_some (p : CellPara) (h : 0 ≤ radicand p) :
    para2matrix p =
      some (Matrix.of ![![p.a, 0, 0],
                       ![p.b * Real.cos p.gamma, p.b * Real.sin p.gamma, 0],
                       ![pm_c1 p, pm_c2 p, Real.sqrt (radicand p)]]) := by
  unfold para2matrix msqrt
  rw [if_neg (not_lt.2 h)]
  rfl

/-- Determinant of an explicit lower triangular three by three
matrix. -/
theorem det_lower_tri (a x y u v w : ℝ) :
    (Matrix.of ![![a, 0, 0], ![x, y, 0], ![u, v, w]]).det = a * y * w := by
  simp [Matrix.det_fin_three]

/-- C1: evaluation at the failing input.  The species count 4 is
divisible by the smallest multiplicity 2 and the first operation of
the smallest-multiplicity Wyckoff position has identity rotation,
which is not the zero matrix; the claim says check_compatible returns
the feasible-with-freedom result, but the code returns False: the test
rotation_matrix.all() != 0.0 on line 1070 is true only when every
entry is nonzero, so the identity rotation is treated as rigid, the
greedy fallback subtracts the multiplicity-3 position first and is
left with remainder 1. -/
theorem claim1_check_compatible_eval :
    4 % wpMult2.length = 0 ∧
    matIsZero (wpMult2.headD []) = false ∧
    check_compatible wyorgBug [4] = CompatResult.infeasible := by
  norm_num [check_compatible, check_compatible_loop, greedy_groups, greedy_wp,
    greedy_while, matAllNonzero, matAllClose0, matIsZero, wyorgBug, wpMult3,
    wpMult2, idRot]

/-- C2: evaluation at the failing input.  For the distance matrix of
three collinear points with off-diagonal distances 2/5, 1/10 and 3/10
and tolerance 1/5, the smallest off-diagonal distance is 1/10, so the
claim says the edges are exactly the pairs within 1/10 + 1/1000,
namely the single pair (0, 2); the code instead builds the single edge
between 1 and 2, whose distance 3/10 exceeds that threshold, because
line 418 reads ijs[1][i] with the row value i used as a position. -/
theorem claim2_find_short_dist_eval :
    (find_short_dist dBug (1/5)).2 = [[], [2], [1]] ∧
    nthD 0 (nthD [] dBug 0) 2 = 1/10 ∧
    nthD 0 (nthD [] dBug 1) 2 = 3/10 ∧
    ¬(nthD 0 (nthD [] dBug 1) 2 ≤ nthD 0 (nthD [] dBug 0) 2 + 1/1000) := by
  norm_num [find_short_dist, find_short_dist_pairs, np_where_le, listMin,
    build_graph, dBug, List.range_succ, nthD, setNth]

/-- C4 (amended): the placement driver in crystal.py uses its own
module constants tol_m = 1.0 and max1 = max2 = max3 = 30 as the
default budgets of generate_crystal, while the separate module
constants.py declares tol_m = 0.3 and budgets 40, 10, 10 that
crystal.py does not import. -/
theorem claim4_driver_constants :
    generate_crystal_default_budgets = (crystal_max1, crystal_max2, crystal_max3) ∧
    crystal_max1 = 30 ∧ crystal_max2 = 30 ∧ crystal_max3 = 30 ∧
    crystal_tol_m = 1 ∧
    constants_tol_m = 3/10 ∧ constants_max1 = 40 ∧ constants_max2 = 10 ∧
    constants_max3 = 10 := by
  norm_num [generate_crystal_default_budgets, crystal_max1, crystal_max2,
    crystal_max3, crystal_tol_m, constants_tol_m, constants_max1,
    constants_max2, constants_max3]

/-- C4: counterexample to the claim as stated: the default budgets of
generate_crystal are not 40, 10, 10 and the driver's separation
tolerance is not 0.3. -/
theorem claim4_counterexample :
    ¬(generate_crystal_default_budgets = (40, 10, 10) ∧ crystal_tol_m = 3/10) := by decide

/-- C5 (amended): cellsize maps centering letter P to 1, each of A, C
and I to 2, R to 3 and F to 4, and thus returns a number between 1 and
4 for every centering letter among P, A, C, I, R, F; the letter B is
not handled and falls through to the error branch. -/
theorem claim5_cellsize_letters :
    cellsize_letter 'P' = some 1 ∧
    cellsize_letter 'A' = some 2 ∧ cellsize_letter 'C' = some 2 ∧
    cellsize_letter 'I' = some 2 ∧
    cellsize_letter 'R' = some 3 ∧ cellsize_letter 'F' = some 4 ∧
    ∀ l ∈ ['P', 'A', 'C', 'I', 'R', 'F'],
      ∃ k, cellsize_letter l = some k ∧ 1 ≤ k ∧ k ≤ 4 := by decide

/-- C5: counterexample to the claim as stated: for the centering
letter B the code returns the error branch, not 2 and not any number
between 1 and 4. -/
theorem claim5_counterexample :
    cellsize_letter 'B' = none ∧ ¬cellsize_letter 'B' = some 2 := by decide

/-- C8: with sin(gamma) nonzero, para2matrix in the default lower
format fails exactly when the radicand c^2 - c1^2 - c2^2 is negative,
and on a nonnegative radicand it returns a lower triangular matrix. -/
theorem claim8_para2matrix_domain (p : CellPara) (hs : Real.sin p.gamma ≠ 0) :
    (para2matrix p = none ↔ radicand p < 0) ∧
    ∀ M, para2matrix p = some M → M 0 1 = 0 ∧ M 0 2 = 0 ∧ M 1 2 = 0 := by
  constructor
  · unfold para2matrix msqrt
    by_cases hr : radicand p < 0
    · simp [hr]
    · simp [hr]
  · intro M hM
    by_cases hr : radicand p < 0
    · exfalso
      unfold para2matrix msqrt at hM
      rw [if_pos hr] at hM
      simp at hM
    · rw [para2matrix_eq_some p (not_lt.1 hr)] at hM
      obtain rfl := Option.some.inj hM
      refine ⟨?_, ?_, ?_⟩ <;> simp

/-- C8 witness: the unit cube parameters have nonzero sin(gamma) and a
nonnegative radicand, so para2matrix succeeds and the claimed
equivalence holds at them. -/
theorem claim8_witness :
    Real.sin pRight.gamma ≠ 0 ∧ (para2matrix pRight = none ↔ radicand pRight < 0) :=
  have hs : Real.sin pRight.gamma ≠ 0 := by
    simp [pRight, Real.sin_pi_div_two]
  ⟨hs, (claim8_para2matrix_domain pRight hs).1⟩

/-- C7: every parameter 6-tuple returned by generate_lattice satisfies
the full acceptance predicate: edges at least minvec, angles strictly
between minangle and pi minus minangle, all six pairwise edge ratios
at most max_ratio, and the near-degenerate guard strictly below
minvec. -/
theorem claim7_lattice_invariants (sg : ℕ) (volume : ℝ)
    (minvec minangle max_ratio : ℝ) (seeds : List LatticeSeeds) (p : CellPara)
    (h : generate_lattice sg volume minvec minangle max_ratio seeds = some p) :
    minvec ≤ p.a ∧ minvec ≤ p.b ∧ minvec ≤ p.c ∧
    minangle < p.alpha ∧ p.alpha < Real.pi - minangle ∧
    minangle < p.beta ∧ p.beta < Real.pi - minangle ∧
    minangle < p.gamma ∧ p.gamma < Real.pi - minangle ∧
    p.a / p.b ≤ max_ratio ∧ p.a / p.c ≤ max_ratio ∧ p.b / p.c ≤ max_ratio ∧
    p.b / p.a ≤ max_ratio ∧ p.c / p.a ≤ max_ratio ∧ p.c / p.b ≤ max_ratio ∧
    min (p.a * Real.cos (max p.beta p.gamma))
      (min (p.b * Real.cos (max p.alpha p.gamma))
        (p.c * Real.cos (max p.alpha p.beta))) < minvec := by
  induction seeds with
  | nil => simp [generate_lattice] at h
  | cons s rest ih =>
    rw [generate_lattice] at h
    by_cases hacc :
      lattice_accept (generate_lattice_attempt sg volume s) minvec minangle max_ratio
    · rw [if_pos hacc] at h
      obtain rfl := Option.some.inj h
      obtain ⟨-, h2, h3, h4, -, -, -, h8, h9, h10, h11, h12, h13, h14,
        h15, h16, h17, h18, h19, h20⟩ := hacc
      exact ⟨h2.le, h3.le, h4.le, h9, h12, h10, h13, h11, h14,
        h15.le, h16.le, h17.le, h18.le, h19.le, h20.le, h8⟩
    · rw [if_neg hacc] at h
      exact ih h

/-- The cubic branch with unit seeds and unit volume produces the unit
cube parameters. -/
theorem attempt_cubic_eval : generate_lattice_attempt 200 1 unitSeeds = pRight := by
  unfold generate_lattice_attempt pRight
  norm_num

/-- The unit cube parameters pass the acceptance check for minvec 1/2,
minangle pi/6 and max_ratio 10. -/
theorem pRight_accepted :
    lattice_accept pRight (1/2) (Real.pi/6) 10 := by
  have hpi := Real.pi_pos
  unfold lattice_accept pRight
  norm_num [Real.cos_pi_div_two]
  constructor <;> linarith

/-- C7 witness: a one-attempt run of generate_lattice for space group
200 at unit volume returns the unit cube, and the invariants hold at
it. -/
theorem claim7_witness :
    generate_lattice 200 1 (1/2) (Real.pi/6) 10 [unitSeeds] = some pRight ∧
    1/2 ≤ pRight.a := by
  have heq : generate_lattice 200 1 (1/2) (Real.pi/6) 10 [unitSeeds] = some pRight := by
    rw [generate_lattice, attempt_cubic_eval, if_pos pRight_accepted]
  exact ⟨heq, (claim7_lattice_invariants 200 1 (1/2) (Real.pi/6) 10 [unitSeeds]
    pRight heq).1⟩

/-- matrix2para reads the three rows of an explicit matrix. -/
theorem matrix2para_rows (r0 r1 r2 : Fin 3 → ℝ) :
    matrix2para (Matrix.of ![r0, r1, r2]) =
      ⟨vnorm r0, vnorm r1, vnorm r2, vangle r1 r2, vangle r0 r2, vangle r0 r1⟩ := rfl

/-- C9: on a valid parameter tuple, positive edges, angles in the
arccos range with sin(gamma) positive and a nonnegative radicand,
para2matrix (lower format) followed by matrix2para recovers the six
parameters exactly, hence within the floating tolerance 10^-8. -/
theorem claim9_roundtrip (p : CellPara)
    (ha : 0 < p.a) (hb : 0 < p.b) (hc : 0 < p.c)
    (hal : 0 ≤ p.alpha) (hau : p.alpha ≤ Real.pi)
    (hbl : 0 ≤ p.beta) (hbu : p.beta ≤ Real.pi)
    (hgl : 0 < p.gamma) (hgu : p.gamma < Real.pi)
    (hrad : 0 ≤ radicand p) :
    ∃ M, para2matrix p = some M ∧ matrix2para M = p ∧
      |(matrix2para M).a - p.a| ≤ 1/10^8 ∧ |(matrix2para M).b - p.b| ≤ 1/10^8 ∧
      |(matrix2para M).c - p.c| ≤ 1/10^8 ∧
      |(matrix2para M).alpha - p.alpha| ≤ 1/10^8 ∧
      |(matrix2para M).beta - p.beta| ≤ 1/10^8 ∧
      |(matrix2para M).gamma - p.gamma| ≤ 1/10^8 := by
  have hsg : 0 < Real.sin p.gamma := Real.sin_pos_of_pos_of_lt_pi hgl hgu
  have hsgne : Real.sin p.gamma ≠ 0 := ne_of_gt hsg
  have hane : p.a ≠ 0 := ne_of_gt ha
  have hbne : p.b ≠ 0 := ne_of_gt hb
  have hcne : p.c ≠ 0 := ne_of_gt hc
  have hva : vnorm ![p.a, 0, 0] = p.a := by
    have e : vnorm ![p.a, 0, 0] = Real.sqrt (p.a ^ 2 + 0 ^ 2 + 0 ^ 2) := rfl
    rw [e, show p.a ^ 2 + 0 ^ 2 + 0 ^ 2 = p.a ^ 2 from by ring, Real.sqrt_sq ha.le]
  have hvb : vnorm ![p.b * Real.cos p.gamma, p.b * Real.sin p.gamma, 0] = p.b := by
    have e : vnorm ![p.b * Real.cos p.gamma, p.b * Real.sin p.gamma, 0] =
        Real.sqrt ((p.b * Real.cos p.gamma) ^ 2 + (p.b * Real.sin p.gamma) ^ 2 + 0 ^ 2) := rfl
    rw [e, show (p.b * Real.cos p.gamma) ^ 2 + (p.b * Real.sin p.gamma) ^ 2 + 0 ^ 2 = p.b ^ 2
      from by linear_combination p.b ^ 2 * Real.sin_sq_add_cos_sq p.gamma,
      Real.sqrt_sq hb.le]
  have hvc : vnorm ![pm_c1 p, pm_c2 p, Real.sqrt (radicand p)] = p.c := by
    have e : vnorm ![pm_c1 p, pm_c2 p, Real.sqrt (radicand p)] =
        Real.sqrt (pm_c1 p ^ 2 + pm_c2 p ^ 2 + Real.sqrt (radicand p) ^ 2) := rfl
    rw [e, Real.sq_sqrt hrad,
      show pm_c1 p ^ 2 + pm_c2 p ^ 2 + radicand p = p.c ^ 2 from by unfold radicand; ring,
      Real.sqrt_sq hc.le]
  have hang12 : vangle ![p.b * Real.cos p.gamma, p.b * Real.sin p.gamma, 0]
      ![pm_c1 p, pm_c2 p, Real.sqrt (radicand p)] = p.alpha := by
    unfold vangle
    have ed : vdot ![p.b * Real.cos p.gamma, p.b * Real.sin p.gamma, 0]
        ![pm_c1 p, pm_c2 p, Real.sqrt (radicand p)] =
        p.b * Real.cos p.gamma * pm_c1 p + p.b * Real.sin p.gamma * pm_c2 p +
          0 * Real.sqrt (radicand p) := rfl
    rw [ed, hvb, hvc,
      show p.b * Real.cos p.gamma * pm_c1 p + p.b * Real.sin p.gamma * pm_c2 p +
          0 * Real.sqrt (radicand p) = p.b * p.c * Real.cos p.alpha from by
        unfold pm_c1 pm_c2; field_simp; ring,
      mul_div_cancel_left₀ _ (mul_ne_zero hbne hcne), Real.arccos_cos hal hau]
  have hang02 : vangle ![p.a, 0, 0] ![pm_c1 p, pm_c2 p, Real.sqrt (radicand p)] = p.beta := by
    unfold vangle
    have ed : vdot ![p.a, 0, 0] ![pm_c1 p, pm_c2 p, Real.sqrt (radicand p)] =
        p.a * pm_c1 p + 0 * pm_c2 p + 0 * Real.sqrt (radicand p) := rfl
    rw [ed, hva, hvc,
      show p.a * pm_c1 p + 0 * pm_c2 p + 0 * Real.sqrt (radicand p) =
          p.a * p.c * Real.cos p.beta from by unfold pm_c1; ring,
      mul_div_cancel_left₀ _ (mul_ne_zero hane hcne), Real.arccos_cos hbl hbu]
  have hang01 : vangle ![p.a, 0, 0]
      ![p.b * Real.cos p.gamma, p.b * Real.sin p.gamma, 0] = p.gamma := by
    unfold vangle
    have ed : vdot ![p.a, 0, 0] ![p.b * Real.cos p.gamma, p.b * Real.sin p.gamma, 0] =
        p.a * (p.b * Real.cos p.gamma) + 0 * (p.b * Real.sin p.gamma) + 0 * 0 := rfl
    rw [ed, hva, hvb,
      show p.a * (p.b * Real.cos p.gamma) + 0 * (p.b * Real.sin p.gamma) + 0 * 0 =
          p.a * p.b * Real.cos p.gamma from by ring,
      mul_div_cancel_left₀ _ (mul_ne_zero hane hbne),
      Real.arccos_cos hgl.le hgu.le]
  have hM2 : matrix2para (Matrix.of ![![p.a, 0, 0],
      ![p.b * Real.cos p.gamma, p.b * Real.sin p.gamma, 0],
      ![pm_c1 p, pm_c2 p, Real.sqrt (radicand p)]]) = p := by
    rw [matrix2para_rows, hva, hvb, hvc, hang12, hang02, hang01]
  refine ⟨_, para2matrix_eq_some p hrad, hM2, ?_, ?_, ?_, ?_, ?_, ?_⟩ <;>
    rw [hM2] <;> norm_num

/-- C9 witness: the unit cube parameters satisfy every validity
hypothesis and round-trip through para2matrix and matrix2para. -/
theorem claim9_witness :
    0 < pRight.a ∧ 0 ≤ radicand pRight ∧
    ∃ M, para2matrix pRight = some M ∧ matrix2para M = pRight := by
  have hpi := Real.pi_pos
  have ha : 0 < pRight.a := by norm_num [pRight]
  have hb : 0 < pRight.b := by norm_num [pRight]
  have hc : 0 < pRight.c := by norm_num [pRight]
  have hal : 0 ≤ pRight.alpha := by simp [pRight]; positivity
  have hau : pRight.alpha ≤ Real.pi := by simp [pRight]; linarith
  have hbl : 0 ≤ pRight.beta := by simp [pRight]; positivity
  have hbu : pRight.beta ≤ Real.pi := by simp [pRight]; linarith
  have hgl : 0 < pRight.gamma := by simp [pRight]; positivity
  have hgu : pRight.gamma < Real.pi := by simp [pRight]; linarith
  have hrad : 0 ≤ radicand pRight := by
    unfold radicand pm_c1 pm_c2 pRight
    norm_num [Real.cos_pi_div_two]
  obtain ⟨M, h1, h2, -⟩ :=
    claim9_roundtrip pRight ha hb hc hal hau hbl hbu hgl hgu hrad
  exact ⟨ha, hrad, M, h1, h2⟩

/-- Cubing undoes the cube root on nonnegative reals. -/
theorem cbrt_cube (t : ℝ) (ht : 0 ≤ t) : cbrt t ^ (3 : ℕ) = t := by
  unfold cbrt
  rw [← Real.rpow_natCast (t ^ ((1 : ℝ) / 3)) 3, ← Real.rpow_mul ht]
  norm_num

/-- The cube root of a positive real is positive. -/
theorem cbrt_pos (t : ℝ) (ht : 0 < t) : 0 < cbrt t :=
  Real.rpow_pos_of_pos ht _

/-- The cube root of a nonnegative real is nonnegative. -/
theorem cbrt_nonneg (t : ℝ) (ht : 0 ≤ t) : 0 ≤ cbrt t :=
  Real.rpow_nonneg ht _

/-- The three edges v_i cbrt(A) / cbrt(v0 v1 v2) of the lattice
sampler multiply back to A. -/
theorem prod_edges (A v0 v1 v2 : ℝ) (hA : 0 ≤ A) (hX : 0 < v0 * v1 * v2) :
    v0 * cbrt A / cbrt (v0 * v1 * v2) * (v1 * cbrt A / cbrt (v0 * v1 * v2)) *
      (v2 * cbrt A / cbrt (v0 * v1 * v2)) = A := by
  have h3A : cbrt A ^ (3 : ℕ) = A := cbrt_cube A hA
  have h3X : cbrt (v0 * v1 * v2) ^ (3 : ℕ) = v0 * v1 * v2 := cbrt_cube _ hX.le
  have hXne : cbrt (v0 * v1 * v2) ≠ 0 := ne_of_gt (cbrt_pos _ hX)
  calc v0 * cbrt A / cbrt (v0 * v1 * v2) * (v1 * cbrt A / cbrt (v0 * v1 * v2)) *
        (v2 * cbrt A / cbrt (v0 * v1 * v2))
      = v0 * v1 * v2 * cbrt A ^ (3 : ℕ) / cbrt (v0 * v1 * v2) ^ (3 : ℕ) := by ring
    _ = v0 * v1 * v2 * A / (v0 * v1 * v2) := by rw [h3A, h3X]
    _ = A := mul_div_cancel_left₀ A (ne_of_gt hX)

/-- A cell parameter tuple with a nonnegative radicand whose lower
triangular diagonal product equals V realizes the volume V exactly. -/
theorem det_volume_core (p : CellPara) (V : ℝ) (hrad : 0 ≤ radicand p)
    (hdet : p.a * (p.b * Real.sin p.gamma) * Real.sqrt (radicand p) = V) :
    ∃ M, para2matrix p = some M ∧ M.det = V ∧ |M.det - V| ≤ 1 := by
  refine ⟨_, para2matrix_eq_some p hrad, ?_, ?_⟩
  · rw [det_lower_tri]
    exact hdet
  · rw [det_lower_tri, hdet]
    norm_num

/-- With both alpha and beta right angles, the c row collapses and the
radicand is c squared. -/
theorem radicand_right_angles (p : CellPara) (h1 : p.alpha = Real.pi / 2)
    (h2 : p.beta = Real.pi / 2) : radicand p = p.c ^ 2 := by
  unfold radicand pm_c1 pm_c2
  rw [h1, h2, Real.cos_pi_div_two]
  norm_num

/-- C3: for every parameter tuple produced by a 3D lattice sampler
attempt, under the positivity conditions the sampler's random sources
guarantee, the lower triangular matrix built by para2matrix exists and
its determinant equals the target volume exactly, hence differs from
it by at most one cubic Angstrom, so the driver's sanity assertion
holds. -/
theorem claim3_volume (sg : ℕ) (volume : ℝ) (s : LatticeSeeds)
    (hV : 0 < volume) (h0 : 0 < s.v0) (h1 : 0 < s.v1) (h2 : 0 < s.v2)
    (hmono : sg ≤ 15 → 0 < Real.sin s.beta)
    (htri : sg ≤ 2 → 0 < Real.sin s.tg ∧ 0 < triGram s) :
    ∃ M, para2matrix (generate_lattice_attempt sg volume s) = some M ∧
      M.det = volume ∧ |M.det - volume| ≤ 1 := by
  have hX : 0 < s.v0 * s.v1 * s.v2 := mul_pos (mul_pos h0 h1) h2
  by_cases hc2 : sg ≤ 2
  · -- triclinic branch
    obtain ⟨hstg, hG⟩ := htri hc2
    have hsne : Real.sin s.tg ≠ 0 := ne_of_gt hstg
    have hsqG : 0 < Real.sqrt (triGram s) := Real.sqrt_pos.2 hG
    have hA : 0 ≤ volume / Real.sqrt (triGram s) := le_of_lt (div_pos hV hsqG)
    have hatt : generate_lattice_attempt sg volume s =
        ⟨s.v0 * cbrt (volume / Real.sqrt (triGram s)) / cbrt (s.v0 * s.v1 * s.v2),
         s.v1 * cbrt (volume / Real.sqrt (triGram s)) / cbrt (s.v0 * s.v1 * s.v2),
         s.v2 * cbrt (volume / Real.sqrt (triGram s)) / cbrt (s.v0 * s.v1 * s.v2),
         s.ta, s.tb, s.tg⟩ := by
      unfold generate_lattice_attempt
      rw [if_pos hc2]
    rw [hatt]
    set cv := s.v2 * cbrt (volume / Real.sqrt (triGram s)) / cbrt (s.v0 * s.v1 * s.v2)
      with hcv
    have hcpos : 0 < cv := by
      rw [hcv]
      exact div_pos (mul_pos h2 (cbrt_pos _ (div_pos hV hsqG))) (cbrt_pos _ hX)
    have hw : 0 ≤ cv * (Real.sqrt (triGram s) / Real.sin s.tg) :=
      le_of_lt (mul_pos hcpos (div_pos hsqG hstg))
    have hradeq : radicand
        ⟨s.v0 * cbrt (volume / Real.sqrt (triGram s)) / cbrt (s.v0 * s.v1 * s.v2),
         s.v1 * cbrt (volume / Real.sqrt (triGram s)) / cbrt (s.v0 * s.v1 * s.v2),
         cv, s.ta, s.tb, s.tg⟩ =
        (cv * (Real.sqrt (triGram s) / Real.sin s.tg)) ^ 2 := by
      unfold radicand pm_c1 pm_c2
      dsimp only
      have key : Real.sqrt (triGram s) ^ 2 = triGram s := Real.sq_sqrt hG.le
      have hsin2 : Real.sin s.tg ^ 2 = 1 - Real.cos s.tg ^ 2 := Real.sin_sq s.tg
      have hGdef : triGram s = 1 - Real.cos s.ta ^ 2 - Real.cos s.tb ^ 2 -
          Real.cos s.tg ^ 2 +
          2 * (Real.cos s.ta * Real.cos s.tb * Real.cos s.tg) := rfl
      field_simp
      linear_combination (cv ^ 2 - cv ^ 2 * Real.cos s.tb ^ 2) * hsin2 -
        cv ^ 2 * key - cv ^ 2 * hGdef
    refine det_volume_core _ _ ?_ ?_
    · rw [hradeq]; positivity
    rw [hradeq, Real.sqrt_sq hw]
    dsimp only
    have hprod := prod_edges (volume / Real.sqrt (triGram s)) s.v0 s.v1 s.v2 hA hX
    calc s.v0 * cbrt (volume / Real.sqrt (triGram s)) / cbrt (s.v0 * s.v1 * s.v2) *
          (s.v1 * cbrt (volume / Real.sqrt (triGram s)) / cbrt (s.v0 * s.v1 * s.v2) *
            Real.sin s.tg) * (cv * (Real.sqrt (triGram s) / Real.sin s.tg))
        = s.v0 * cbrt (volume / Real.sqrt (triGram s)) / cbrt (s.v0 * s.v1 * s.v2) *
          (s.v1 * cbrt (volume / Real.sqrt (triGram s)) / cbrt (s.v0 * s.v1 * s.v2)) *
          cv * Real.sqrt (triGram s) * (Real.sin s.tg / Real.sin s.tg) := by ring
      _ = volume / Real.sqrt (triGram s) * Real.sqrt (triGram s) := by
          rw [div_self hsne, hcv, hprod]
          ring
      _ = volume := div_mul_cancel₀ volume (ne_of_gt hsqG)
  · by_cases hc15 : sg ≤ 15
    · -- monoclinic branch
      have hsb : 0 < Real.sin s.beta := hmono hc15
      have hsbne : Real.sin s.beta ≠ 0 := ne_of_gt hsb
      have hA : 0 ≤ volume / Real.sin s.beta := le_of_lt (div_pos hV hsb)
      have hatt : generate_lattice_attempt sg volume s =
          ⟨s.v0 * cbrt (volume / Real.sin s.beta) / cbrt (s.v0 * s.v1 * s.v2),
           s.v1 * cbrt (volume / Real.sin s.beta) / cbrt (s.v0 * s.v1 * s.v2),
           s.v2 * cbrt (volume / Real.sin s.beta) / cbrt (s.v0 * s.v1 * s.v2),
           Real.pi / 2, s.beta, Real.pi / 2⟩ := by
        unfold generate_lattice_attempt
        rw [if_neg hc2, if_pos hc15]
      rw [hatt]
      set cv := s.v2 * cbrt (volume / Real.sin s.beta) / cbrt (s.v0 * s.v1 * s.v2)
        with hcv
      have hcpos : 0 < cv := by
        rw [hcv]
        exact div_pos (mul_pos h2 (cbrt_pos _ (div_pos hV hsb))) (cbrt_pos _ hX)
      have hradeq : radicand
          ⟨s.v0 * cbrt (volume / Real.sin s.beta) / cbrt (s.v0 * s.v1 * s.v2),
           s.v1 * cbrt (volume / Real.sin s.beta) / cbrt (s.v0 * s.v1 * s.v2),
           cv, Real.pi / 2, s.beta, Real.pi / 2⟩ = (cv * Real.sin s.beta) ^ 2 := by
        unfold radicand pm_c1 pm_c2
        dsimp only
        rw [Real.cos_pi_div_two, Real.sin_pi_div_two]
        have hsin2 : Real.sin s.beta ^ 2 = 1 - Real.cos s.beta ^ 2 := Real.sin_sq s.beta
        field_simp
        linear_combination (-(cv ^ 2)) * hsin2
      refine det_volume_core _ _ ?_ ?_
      · rw [hradeq]; positivity
      rw [hradeq, Real.sqrt_sq (le_of_lt (mul_pos hcpos hsb))]
      dsimp only
      rw [Real.sin_pi_div_two]
      have hprod := prod_edges (volume / Real.sin s.beta) s.v0 s.v1 s.v2 hA hX
      calc s.v0 * cbrt (volume / Real.sin s.beta) / cbrt (s.v0 * s.v1 * s.v2) *
            (s.v1 * cbrt (volume / Real.sin s.beta) / cbrt (s.v0 * s.v1 * s.v2) * 1) *
            (cv * Real.sin s.beta)
          = s.v0 * cbrt (volume / Real.sin s.beta) / cbrt (s.v0 * s.v1 * s.v2) *
            (s.v1 * cbrt (volume / Real.sin s.beta) / cbrt (s.v0 * s.v1 * s.v2)) *
            cv * Real.sin s.beta := by ring
        _ = volume / Real.sin s.beta * Real.sin s.beta := by rw [hcv, hprod]
        _ = volume := div_mul_cancel₀ volume hsbne
    · by_cases hc74 : sg ≤ 74
      · -- orthorhombic branch
        have hA : 0 ≤ volume / 1 := by positivity
        have hatt : generate_lattice_attempt sg volume s =
            ⟨s.v0 * cbrt (volume / 1) / cbrt (s.v0 * s.v1 * s.v2),
             s.v1 * cbrt (volume / 1) / cbrt (s.v0 * s.v1 * s.v2),
             s.v2 * cbrt (volume / 1) / cbrt (s.v0 * s.v1 * s.v2),
             Real.pi / 2, Real.pi / 2, Real.pi / 2⟩ := by
          unfold generate_lattice_attempt
          rw [if_neg hc2, if_neg hc15, if_pos hc74]
        rw [hatt]
        have hcpos : 0 < s.v2 * cbrt (volume / 1) / cbrt (s.v0 * s.v1 * s.v2) :=
          div_pos (mul_pos h2 (cbrt_pos _ (by positivity))) (cbrt_pos _ hX)
        refine det_volume_core _ _ ?_ ?_
        · rw [radicand_right_angles _ rfl rfl]; positivity
        rw [radicand_right_angles _ rfl rfl]
        dsimp only
        rw [Real.sin_pi_div_two, Real.sqrt_sq hcpos.le]
        have hprod := prod_edges (volume / 1) s.v0 s.v1 s.v2 hA hX
        calc s.v0 * cbrt (volume / 1) / cbrt (s.v0 * s.v1 * s.v2) *
              (s.v1 * cbrt (volume / 1) / cbrt (s.v0 * s.v1 * s.v2) * 1) *
              (s.v2 * cbrt (volume / 1) / cbrt (s.v0 * s.v1 * s.v2))
            = s.v0 * cbrt (volume / 1) / cbrt (s.v0 * s.v1 * s.v2) *
              (s.v1 * cbrt (volume / 1) / cbrt (s.v0 * s.v1 * s.v2)) *
              (s.v2 * cbrt (volume / 1) / cbrt (s.v0 * s.v1 * s.v2)) := by ring
          _ = volume / 1 := hprod
          _ = volume := by norm_num
      · by_cases hc142 : sg ≤ 142
        · -- tetragonal branch
          have hcpos : 0 < s.v2 / (s.v0 * s.v1) * cbrt (volume / 1) :=
            mul_pos (div_pos h2 (mul_pos h0 h1)) (cbrt_pos _ (by positivity))
          have hatt : generate_lattice_attempt sg volume s =
              ⟨Real.sqrt (volume / 1 / (s.v2 / (s.v0 * s.v1) * cbrt (volume / 1))),
               Real.sqrt (volume / 1 / (s.v2 / (s.v0 * s.v1) * cbrt (volume / 1))),
               s.v2 / (s.v0 * s.v1) * cbrt (volume / 1),
               Real.pi / 2, Real.pi / 2, Real.pi / 2⟩ := by
            unfold generate_lattice_attempt
            rw [if_neg hc2, if_neg hc15, if_neg hc74, if_pos hc142]
          rw [hatt]
          refine det_volume_core _ _ ?_ ?_
          · rw [radicand_right_angles _ rfl rfl]; positivity
          rw [radicand_right_angles _ rfl rfl]
          dsimp only
          rw [Real.sin_pi_div_two, Real.sqrt_sq hcpos.le]
          have hsq : Real.sqrt (volume / 1 / (s.v2 / (s.v0 * s.v1) * cbrt (volume / 1))) *
              Real.sqrt (volume / 1 / (s.v2 / (s.v0 * s.v1) * cbrt (volume / 1))) =
              volume / 1 / (s.v2 / (s.v0 * s.v1) * cbrt (volume / 1)) :=
            Real.mul_self_sqrt (by positivity)
          calc Real.sqrt (volume / 1 / (s.v2 / (s.v0 * s.v1) * cbrt (volume / 1))) *
                (Real.sqrt (volume / 1 / (s.v2 / (s.v0 * s.v1) * cbrt (volume / 1))) * 1) *
                (s.v2 / (s.v0 * s.v1) * cbrt (volume / 1))
              = Real.sqrt (volume / 1 / (s.v2 / (s.v0 * s.v1) * cbrt (volume / 1))) *
                Real.sqrt (volume / 1 / (s.v2 / (s.v0 * s.v1) * cbrt (volume / 1))) *
                (s.v2 / (s.v0 * s.v1) * cbrt (volume / 1)) := by ring
            _ = volume / 1 / (s.v2 / (s.v0 * s.v1) * cbrt (volume / 1)) *
                (s.v2 / (s.v0 * s.v1) * cbrt (volume / 1)) := by rw [hsq]
            _ = volume / 1 := div_mul_cancel₀ _ (ne_of_gt hcpos)
            _ = volume := by norm_num
        · by_cases hc194 : sg ≤ 194
          · -- trigonal and hexagonal branch
            have hx : (0:ℝ) < Real.sqrt 3 / 2 :=
              div_pos (Real.sqrt_pos.2 (by norm_num)) (by norm_num)
            have hVx : 0 < volume / (Real.sqrt 3 / 2) := div_pos hV hx
            have hcpos : 0 < s.v2 / (s.v0 * s.v1) * cbrt (volume / (Real.sqrt 3 / 2)) :=
              mul_pos (div_pos h2 (mul_pos h0 h1)) (cbrt_pos _ hVx)
            have hatt : generate_lattice_attempt sg volume s =
                ⟨Real.sqrt (volume / (Real.sqrt 3 / 2) /
                    (s.v2 / (s.v0 * s.v1) * cbrt (volume / (Real.sqrt 3 / 2)))),
                 Real.sqrt (volume / (Real.sqrt 3 / 2) /
                    (s.v2 / (s.v0 * s.v1) * cbrt (volume / (Real.sqrt 3 / 2)))),
                 s.v2 / (s.v0 * s.v1) * cbrt (volume / (Real.sqrt 3 / 2)),
                 Real.pi / 2, Real.pi / 2, Real.pi / 3 * 2⟩ := by
              unfold generate_lattice_attempt
              rw [if_neg hc2, if_neg hc15, if_neg hc74, if_neg hc142, if_pos hc194]
            rw [hatt]
            refine det_volume_core _ _ ?_ ?_
            · rw [radicand_right_angles _ rfl rfl]; positivity
            rw [radicand_right_angles _ rfl rfl]
            dsimp only
            have hsin : Real.sin (Real.pi / 3 * 2) = Real.sqrt 3 / 2 := by
              rw [show Real.pi / 3 * 2 = Real.pi - Real.pi / 3 from by ring,
                Real.sin_pi_sub, Real.sin_pi_div_three]
            rw [hsin, Real.sqrt_sq hcpos.le]
            have hsq : Real.sqrt (volume / (Real.sqrt 3 / 2) /
                  (s.v2 / (s.v0 * s.v1) * cbrt (volume / (Real.sqrt 3 / 2)))) *
                Real.sqrt (volume / (Real.sqrt 3 / 2) /
                  (s.v2 / (s.v0 * s.v1) * cbrt (volume / (Real.sqrt 3 / 2)))) =
                volume / (Real.sqrt 3 / 2) /
                  (s.v2 / (s.v0 * s.v1) * cbrt (volume / (Real.sqrt 3 / 2))) :=
              Real.mul_self_sqrt (by positivity)
            calc Real.sqrt (volume / (Real.sqrt 3 / 2) /
                    (s.v2 / (s.v0 * s.v1) * cbrt (volume / (Real.sqrt 3 / 2)))) *
                  (Real.sqrt (volume / (Real.sqrt 3 / 2) /
                    (s.v2 / (s.v0 * s.v1) * cbrt (volume / (Real.sqrt 3 / 2)))) *
                    (Real.sqrt 3 / 2)) *
                  (s.v2 / (s.v0 * s.v1) * cbrt (volume / (Real.sqrt 3 / 2)))
                = Real.sqrt (volume / (Real.sqrt 3 / 2) /
                    (s.v2 / (s.v0 * s.v1) * cbrt (volume / (Real.sqrt 3 / 2)))) *
                  Real.sqrt (volume / (Real.sqrt 3 / 2) /
                    (s.v2 / (s.v0 * s.v1) * cbrt (volume / (Real.sqrt 3 / 2)))) *
                  (s.v2 / (s.v0 * s.v1) * cbrt (volume / (Real.sqrt 3 / 2))) *
                  (Real.sqrt 3 / 2) := by ring
              _ = volume / (Real.sqrt 3 / 2) /
                    (s.v2 / (s.v0 * s.v1) * cbrt (volume / (Real.sqrt 3 / 2))) *
                  (s.v2 / (s.v0 * s.v1) * cbrt (volume / (Real.sqrt 3 / 2))) *
                  (Real.sqrt 3 / 2) := by rw [hsq]
              _ = volume / (Real.sqrt 3 / 2) * (Real.sqrt 3 / 2) := by
                  rw [div_mul_cancel₀ _ (ne_of_gt hcpos)]
              _ = volume := div_mul_cancel₀ volume (ne_of_gt hx)
          · -- cubic branch
            have hatt : generate_lattice_attempt sg volume s =
                ⟨volume ^ ((1:ℝ)/3), volume ^ ((1:ℝ)/3), volume ^ ((1:ℝ)/3),
                 Real.pi / 2, Real.pi / 2, Real.pi / 2⟩ := by
              unfold generate_lattice_attempt
              rw [if_neg hc2, if_neg hc15, if_neg hc74, if_neg hc142, if_neg hc194]
            rw [hatt]
            have hepos : 0 < volume ^ ((1:ℝ)/3) := Real.rpow_pos_of_pos hV _
            refine det_volume_core _ _ ?_ ?_
            · rw [radicand_right_angles _ rfl rfl]; positivity
            rw [radicand_right_angles _ rfl rfl]
            dsimp only
            rw [Real.sin_pi_div_two, Real.sqrt_sq hepos.le]
            have h3 : (volume ^ ((1:ℝ)/3)) ^ (3 : ℕ) = volume := cbrt_cube volume hV.le
            linear_combination h3

/-- C3 witness: the orthorhombic branch at volume 8 with unit seeds
realizes the volume exactly; the branch-specific hypotheses for the
triclinic and monoclinic branches are vacuous at space group 16. -/
theorem claim3_witness :
    ∃ M, para2matrix (generate_lattice_attempt 16 8 unitSeeds) = some M ∧
      M.det = 8 ∧ |M.det - 8| ≤ 1 :=
  claim3_volume 16 8 unitSeeds (by norm_num) (by norm_num [unitSeeds])
    (by norm_num [unitSeeds]) (by norm_num [unitSeeds])
    (fun h => absurd h (by norm_num)) (fun h => absurd h (by norm_num))

/-! ### Supporting lemmas for the merge-loop termination claim -/

theorem nthD_eq_getD {α : Type} (d : α) (l : List α) (i : ℕ) :
    nthD d l i = l.getD i d := by
  induction l generalizing i with
  | nil => cases i <;> rfl
  | cons x xs ih => cases i with
    | zero => rfl
    | succ k => simpa [nthD] using ih k

theorem nthD_mem_or_default {α : Type} (d : α) (l : List α) (i : ℕ) :
    nthD d l i = d ∨ nthD d l i ∈ l := by
  induction l generalizing i with
  | nil => left; cases i <;> rfl
  | cons x xs ih =>
    cases i with
    | zero => right; simp [nthD]
    | succ k =>
      rcases ih k with h | h
      · left; simpa [nthD] using h
      · right; simp [nthD]; right; exact h

theorem nthD_mem_of_lt {α : Type} (d : α) (l : List α) (i : ℕ) (h : i < l.length) :
    nthD d l i ∈ l := by
  induction l generalizing i with
  | nil => simp at h
  | cons x xs ih =>
    cases i with
    | zero => simp [nthD]
    | succ k =>
      simp only [nthD]
      exact List.mem_cons_of_mem x (ih k (by simpa using h))

theorem length_setNth {α : Type} (l : List α) (i : ℕ) (v : α) :
    (setNth l i v).length = l.length := by
  induction l generalizing i with
  | nil => cases i <;> rfl
  | cons x xs ih => cases i with
    | zero => rfl
    | succ k => simpa [setNth] using ih k

theorem setNth_of_ge {α : Type} (l : List α) (i : ℕ) (v : α) (h : l.length ≤ i) :
    setNth l i v = l := by
  induction l generalizing i with
  | nil => cases i <;> rfl
  | cons x xs ih =>
    cases i with
    | zero => simp at h
    | succ k => simp only [setNth]; rw [ih k (by simpa using h)]

theorem nthD_setNth_self {α : Type} (d : α) (l : List α) (i : ℕ) (v : α)
    (h : i < l.length) : nthD d (setNth l i v) i = v := by
  induction l generalizing i with
  | nil => simp at h
  | cons x xs ih =>
    cases i with
    | zero => rfl
    | succ k => simp only [setNth, nthD]; exact ih k (by simpa using h)

theorem nthD_setNth_ne {α : Type} (d : α) (l : List α) (i j : ℕ) (v : α)
    (h : i ≠ j) : nthD d (setNth l i v) j = nthD d l j := by
  induction l generalizing i j with
  | nil => cases i <;> cases j <;> rfl
  | cons x xs ih =>
    cases i with
    | zero => cases j with
      | zero => exact absurd rfl h
      | succ k => rfl
    | succ m => cases j with
      | zero => rfl
      | succ k => simp only [setNth, nthD]; exact ih m k (by omega)

theorem mem_setNth {α : Type} (l : List α) (i : ℕ) (v : α) (x : α)
    (h : x ∈ setNth l i v) : x ∈ l ∨ x = v := by
  induction l generalizing i with
  | nil => cases i <;> simp [setNth] at h
  | cons y ys ih =>
    cases i with
    | zero =>
      simp only [setNth] at h
      rcases List.mem_cons.1 h with h | h
      · right; exact h
      · left; exact List.mem_cons_of_mem y h
    | succ k =>
      simp only [setNth] at h
      rcases List.mem_cons.1 h with h | h
      · left; simp [h]
      · rcases ih k h with h | h
        · left; exact List.mem_cons_of_mem y h
        · right; exact h

theorem np_where_le_bounds (d : List (List ℚ)) (tol : ℚ) (pr : ℕ × ℕ)
    (h : pr ∈ np_where_le d tol) :
    pr.1 < d.length ∧ pr.2 < (nthD [] d pr.1).length := by
  unfold np_where_le at h
  rcases List.mem_flatMap.1 h with ⟨i, hi, hmem⟩
  rcases List.mem_map.1 hmem with ⟨j, hj, rfl⟩
  have hj2 := (List.mem_filter.1 hj).1
  exact ⟨List.mem_range.1 hi, List.mem_range.1 hj2⟩

/-- Every pair the collection loop of find_short_dist emits has
strictly increasing valid indices. -/
theorem fsd_pairs_bounds (d : List (List ℚ)) (tol : ℚ) (m : ℕ)
    (hrow : ∀ r ∈ d, r.length = m) (p : ℕ × ℕ × ℚ)
    (hp : p ∈ find_short_dist_pairs d tol) :
    p.1 < p.2.1 ∧ p.1 < d.length ∧ p.2.1 < m := by
  unfold find_short_dist_pairs at hp
  set ijs := np_where_le d tol with hijs
  have main : ∀ (L : List ℕ) (acc : List (ℕ × ℕ × ℚ)),
      (∀ i ∈ L, i ∈ ijs.map Prod.fst) →
      (∀ q ∈ acc, q.1 < q.2.1 ∧ q.1 < d.length ∧ q.2.1 < m) →
      ∀ q ∈ L.foldl (fun acc i =>
          let j := nthD 0 (ijs.map Prod.snd) i
          if j ≤ i then acc else acc ++ [(i, j, nthD 0 (nthD [] d i) j)]) acc,
        q.1 < q.2.1 ∧ q.1 < d.length ∧ q.2.1 < m := by
    intro L
    induction L with
    | nil => intro acc _ hacc q hq; exact hacc q hq
    | cons i L ih =>
      intro acc hL hacc q hq
      simp only [List.foldl_cons] at hq
      refine ih _ (fun x hx => hL x (List.mem_cons_of_mem i hx)) ?_ q hq
      intro q hq
      by_cases hji : nthD 0 (ijs.map Prod.snd) i ≤ i
      · rw [if_pos hji] at hq
        exact hacc q hq
      · rw [if_neg hji] at hq
        rcases List.mem_append.1 hq with hq | hq
        · exact hacc q hq
        · have hq2 := List.mem_singleton.1 hq
          subst hq2
          push_neg at hji
          refine ⟨hji, ?_, ?_⟩
          · have hi := hL i (List.mem_cons_self i L)
            rcases List.mem_map.1 hi with ⟨pr, hpr, hpr2⟩
            have := (np_where_le_bounds d tol pr hpr).1
            rw [hpr2] at this
            exact this
          · rcases nthD_mem_or_default 0 (ijs.map Prod.snd) i with hd | hmem
            · rw [hd] at hji; omega
            · rcases List.mem_map.1 hmem with ⟨pr, hpr, hpr2⟩
              have hb := (np_where_le_bounds d tol pr hpr).2
              rcases nthD_mem_or_default ([] : List ℚ) d pr.1 with hrd | hrmem
              · rw [hrd] at hb; simp at hb
              · rw [hrow _ hrmem] at hb
                rw [← hpr2]
                exact hb
  exact main _ [] (fun i hi => List.dedup_subset _ hi) (by simp) p hp

theorem length_build_graph (n : ℕ) (kept : List (ℕ × ℕ × ℚ)) :
    (build_graph n kept).length = n := by
  unfold build_graph
  have main : ∀ (L : List (ℕ × ℕ × ℚ)) (g : List (List ℕ)),
      (L.foldl (fun g p =>
        let g1 := setNth g p.1 (nthD [] g p.1 ++ [p.2.1])
        setNth g1 p.2.1 (nthD [] g1 p.2.1 ++ [p.1])) g).length = g.length := by
    intro L
    induction L with
    | nil => intro g; rfl
    | cons p L ih =>
      intro g
      simp only [List.foldl_cons]
      rw [ih]
      simp [length_setNth]
  rw [main]
  exact List.length_replicate n []

theorem wf_build_graph (n : ℕ) (kept : List (ℕ × ℕ × ℚ))
    (hk : ∀ p ∈ kept, p.1 < n ∧ p.2.1 < n) :
    ∀ l ∈ build_graph n kept, ∀ x ∈ l, x < n := by
  unfold build_graph
  have main : ∀ (L : List (ℕ × ℕ × ℚ)) (g : List (List ℕ)),
      (∀ p ∈ L, p.1 < n ∧ p.2.1 < n) →
      (∀ l ∈ g, ∀ x ∈ l, x < n) →
      ∀ l ∈ L.foldl (fun g p =>
        let g1 := setNth g p.1 (nthD [] g p.1 ++ [p.2.1])
        setNth g1 p.2.1 (nthD [] g1 p.2.1 ++ [p.1])) g, ∀ x ∈ l, x < n := by
    intro L
    induction L with
    | nil => intro g _ hg; exact hg
    | cons p L ih =>
      intro g hL hg
      simp only [List.foldl_cons]
      apply ih _ (fun q hq => hL q (List.mem_cons_of_mem p hq))
      have hp := hL p (List.mem_cons_self p L)
      have hg1 : ∀ l ∈ setNth g p.1 (nthD [] g p.1 ++ [p.2.1]), ∀ x ∈ l, x < n := by
        intro l hl x hx
        rcases mem_setNth _ _ _ _ hl with hl | hl
        · exact hg l hl x hx
        · subst hl
          rcases List.mem_append.1 hx with hx | hx
          · rcases nthD_mem_or_default ([] : List ℕ) g p.1 with hd | hm
            · rw [hd] at hx; simp at hx
            · exact hg _ hm x hx
          · rw [List.mem_singleton.1 hx]; exact hp.2
      intro l hl x hx
      rcases mem_setNth _ _ _ _ hl with hl | hl
      · exact hg1 l hl x hx
      · subst hl
        rcases List.mem_append.1 hx with hx | hx
        · rcases nthD_mem_or_default ([] : List ℕ)
            (setNth g p.1 (nthD [] g p.1 ++ [p.2.1])) p.2.1 with hd | hm
          · rw [hd] at hx; simp at hx
          · exact hg1 _ hm x hx
        · rw [List.mem_singleton.1 hx]; exact hp.1
  intro l hl
  refine main kept (List.replicate n []) hk ?_ l hl
  intro l hl x hx
  rw [List.eq_of_mem_replicate hl] at hx
  simp at hx

/-- Appending to one adjacency list preserves membership in every
adjacency list. -/
theorem setNth_append_mono (g : List (List ℕ)) (i w k x : ℕ)
    (h : x ∈ nthD [] g k) :
    x ∈ nthD [] (setNth g i (nthD [] g i ++ [w])) k := by
  by_cases hik : i = k
  · subst hik
    by_cases hlen : i < g.length
    · rw [nthD_setNth_self _ _ _ _ hlen]
      exact List.mem_append_left _ h
    · rw [setNth_of_ge _ _ _ (le_of_not_lt hlen)]
      exact h
  · rw [nthD_setNth_ne _ _ _ _ _ hik]
    exact h

/-- Both directions of every kept pair appear in the adjacency lists
built by the graph loop of find_short_dist. -/
theorem edge_mem_build_graph (n : ℕ) (kept : List (ℕ × ℕ × ℚ))
    (hk : ∀ p ∈ kept, p.1 < p.2.1 ∧ p.1 < n ∧ p.2.1 < n) :
    ∀ p ∈ kept, p.2.1 ∈ nthD [] (build_graph n kept) p.1 ∧
      p.1 ∈ nthD [] (build_graph n kept) p.2.1 := by
  unfold build_graph
  have main : ∀ (L : List (ℕ × ℕ × ℚ)) (g : List (List ℕ)),
      g.length = n →
      (∀ p ∈ L, p.1 < p.2.1 ∧ p.1 < n ∧ p.2.1 < n) →
      ∀ p ∈ L,
        p.2.1 ∈ nthD [] (L.foldl (fun g p =>
          let g1 := setNth g p.1 (nthD [] g p.1 ++ [p.2.1])
          setNth g1 p.2.1 (nthD [] g1 p.2.1 ++ [p.1])) g) p.1 ∧
        p.1 ∈ nthD [] (L.foldl (fun g p =>
          let g1 := setNth g p.1 (nthD [] g p.1 ++ [p.2.1])
          setNth g1 p.2.1 (nthD [] g1 p.2.1 ++ [p.1])) g) p.2.1 := by
    intro L
    induction L with
    | nil => intro g _ _ p hp; simp at hp
    | cons q L ih =>
      intro g hlen hL p hp
      simp only [List.foldl_cons]
      have hq := hL q (List.mem_cons_self q L)
      have hmono : ∀ (h2 : List (List ℕ)) (k x : ℕ), x ∈ nthD [] h2 k →
          ∀ r : ℕ × ℕ × ℚ, x ∈ nthD []
            (setNth (setNth h2 r.1 (nthD [] h2 r.1 ++ [r.2.1])) r.2.1
              (nthD [] (setNth h2 r.1 (nthD [] h2 r.1 ++ [r.2.1])) r.2.1 ++ [r.1])) k :=
        fun h2 k x hx r => setNth_append_mono _ _ _ _ _ (setNth_append_mono _ _ _ _ _ hx)
      have hmonoFold : ∀ (M : List (ℕ × ℕ × ℚ)) (h2 : List (List ℕ)) (k x : ℕ),
          x ∈ nthD [] h2 k →
          x ∈ nthD [] (M.foldl (fun g p =>
            let g1 := setNth g p.1 (nthD [] g p.1 ++ [p.2.1])
            setNth g1 p.2.1 (nthD [] g1 p.2.1 ++ [p.1])) h2) k := by
        intro M
        induction M with
        | nil => intro h2 k x hx; exact hx
        | cons r M ihm =>
          intro h2 k x hx
          simp only [List.foldl_cons]
          exact ihm _ _ _ (hmono h2 k x hx r)
      have hg1len : (setNth g q.1 (nthD [] g q.1 ++ [q.2.1])).length = n := by
        rw [length_setNth, hlen]
      have hg2len : (setNth (setNth g q.1 (nthD [] g q.1 ++ [q.2.1])) q.2.1
          (nthD [] (setNth g q.1 (nthD [] g q.1 ++ [q.2.1])) q.2.1 ++ [q.1])).length = n := by
        rw [length_setNth, hg1len]
      rcases List.mem_cons.1 hp with rfl | hp2
      · constructor
        · apply hmonoFold
          apply setNth_append_mono
          rw [nthD_setNth_self _ _ _ _ (by rw [hlen]; exact hq.2.1)]
          exact List.mem_append_right _ (List.mem_singleton_self _)
        · apply hmonoFold
          rw [nthD_setNth_self _ _ _ _ (by rw [hg1len]; exact hq.2.2)]
          exact List.mem_append_right _ (List.mem_singleton_self _)
      · exact ih _ hg2len (fun r hr => hL r (List.mem_cons_of_mem q hr)) p hp2
  intro p hp
  exact main kept (List.replicate n []) (List.length_replicate n []) hk p hp

/-- The graph returned by find_short_dist has one adjacency list per
row of the distance matrix. -/
theorem fsd_graph_length (d : List (List ℚ)) (tol : ℚ) :
    (find_short_dist d tol).2.length = d.length := by
  unfold find_short_dist
  by_cases h : find_short_dist_pairs d tol = []
  · rw [if_neg (by simpa using h)]
    exact List.length_replicate _ []
  · rw [if_pos (by simpa using h)]
    exact length_build_graph _ _

/-- On a square distance matrix the graph returned by find_short_dist
is well formed. -/
theorem fsd_graph_wf (d : List (List ℚ)) (tol : ℚ)
    (hrow : ∀ r ∈ d, r.length = d.length) :
    ∀ l ∈ (find_short_dist d tol).2, ∀ x ∈ l, x < d.length := by
  unfold find_short_dist
  by_cases h : find_short_dist_pairs d tol = []
  · rw [if_neg (by simpa using h)]
    intro l hl x hx
    rw [List.eq_of_mem_replicate hl] at hx
    simp at hx
  · rw [if_pos (by simpa using h)]
    intro l hl x hx
    refine wf_build_graph d.length _ ?_ l hl x hx
    intro p hp
    have hb := fsd_pairs_bounds d tol d.length hrow p (List.mem_of_mem_filter hp)
    exact ⟨hb.2.1, hb.2.2⟩

/-- When find_short_dist returns pairs, the graph contains a genuine
undirected edge between two distinct valid vertices. -/
theorem fsd_edge (d : List (List ℚ)) (tol : ℚ)
    (hrow : ∀ r ∈ d, r.length = d.length)
    (hne : (find_short_dist d tol).1 ≠ []) :
    ∃ u v : ℕ, u ≠ v ∧ u < d.length ∧ v < d.length ∧
      v ∈ nthD [] (find_short_dist d tol).2 u ∧
      u ∈ nthD [] (find_short_dist d tol).2 v := by
  unfold find_short_dist at hne ⊢
  by_cases h : find_short_dist_pairs d tol = []
  · rw [if_neg (by simpa using h)] at hne
    simp at hne
  · rw [if_pos (by simpa using h)] at hne ⊢
    obtain ⟨p, hp⟩ := List.exists_mem_of_ne_nil _ hne
    have hkb : ∀ q ∈ (find_short_dist_pairs d tol).filter
        (fun q => decide (q.2.2 ≤ listMin ((find_short_dist_pairs d tol).map
          (fun p => p.2.2)) + 1/1000)), q.1 < q.2.1 ∧ q.1 < d.length ∧ q.2.1 < d.length :=
      fun q hq => fsd_pairs_bounds d tol d.length hrow q (List.mem_of_mem_filter hq)
    have hb := hkb p hp
    have hedge := edge_mem_build_graph d.length _ hkb p hp
    exact ⟨p.1, p.2.1, Nat.ne_of_lt hb.1, hb.2.1, hb.2.2, hedge.1, hedge.2⟩

/-- A duplicate-free list of naturals below n with at least n members
contains every natural below n. -/
theorem nodup_bounded_full (l : List ℕ) (n : ℕ) (hnd : l.Nodup)
    (hbd : ∀ a ∈ l, a < n) (hlen : n ≤ l.length) : ∀ k < n, k ∈ l := by
  intro k hk
  have hsub : l.toFinset ⊆ Finset.range n := by
    intro a ha
    exact Finset.mem_range.2 (hbd a (List.mem_toFinset.1 ha))
  have hcard : (Finset.range n).card ≤ l.toFinset.card := by
    rw [Finset.card_range, List.toFinset_card_of_nodup hnd]
    exact hlen
  have heq := Finset.eq_of_subset_of_card_le hsub hcard
  rw [← List.mem_toFinset, heq]
  exact Finset.mem_range.2 hk

/-- Main invariant of the recursive add_neighbors walk: with enough
fuel relative to the number of still unseen vertices, the fold over a
neighbor list produces a closed, duplicate-free, bounded extension of
the state containing the whole list. -/
theorem an_fold_main (g : List (List ℕ)) (hwf : graphWF g) :
    ∀ (fuel : ℕ) (L s : List ℕ),
      (∀ x ∈ L, x < g.length) → s.Nodup → (∀ a ∈ s, a < g.length) →
      g.length + 1 ≤ fuel + 1 + s.length →
      DFSBundle g L s (L.foldl
        (fun s x => if x ∈ s then s else add_neighbors g fuel x (s ++ [x])) s) := by
  intro fuel
  induction fuel with
  | zero =>
    intro L s hL hnd hbd hcnt
    have hfull : ∀ k < g.length, k ∈ s :=
      nodup_bounded_full s g.length hnd hbd (by omega)
    have hR : ∀ (M : List ℕ), (∀ x ∈ M, x ∈ s) →
        M.foldl (fun s x => if x ∈ s then s else add_neighbors g 0 x (s ++ [x])) s = s := by
      intro M
      induction M with
      | nil => intro _; rfl
      | cons x M ihM =>
        intro hM
        simp only [List.foldl_cons]
        rw [if_pos (hM x (List.mem_cons_self x M))]
        exact ihM (fun y hy => hM y (List.mem_cons_of_mem x hy))
    rw [hR L (fun x hx => hfull x (hL x hx))]
    exact ⟨⟨[], by simp⟩, hnd, hbd, fun x hx => hfull x (hL x hx),
      fun u hu hus => absurd hu hus⟩
  | succ f ihf =>
    intro L
    induction L with
    | nil =>
      intro s hL hnd hbd hcnt
      exact ⟨⟨[], by simp⟩, hnd, hbd, by simp, fun u hu hus => absurd hu hus⟩
    | cons x L ihL =>
      intro s hL hnd hbd hcnt
      simp only [List.foldl_cons]
      by_cases hxs : x ∈ s
      · rw [if_pos hxs]
        obtain ⟨he, hnd2, hbd2, hmem, hcl⟩ :=
          ihL s (fun y hy => hL y (List.mem_cons_of_mem x hy)) hnd hbd hcnt
        refine ⟨he, hnd2, hbd2, ?_, hcl⟩
        intro y hy
        rcases List.mem_cons.1 hy with rfl | hy
        · obtain ⟨t, ht⟩ := he
          rw [ht]
          exact List.mem_append_left _ hxs
        · exact hmem y hy
      · rw [if_neg hxs]
        have hxn : x < g.length := hL x (List.mem_cons_self x L)
        have hnd1 : (s ++ [x]).Nodup := by
          simp [List.nodup_append, hnd, hxs]
        have hbd1 : ∀ a ∈ s ++ [x], a < g.length := by
          intro a ha
          rcases List.mem_append.1 ha with ha | ha
          · exact hbd a ha
          · rw [List.mem_singleton.1 ha]; exact hxn
        have hLx : ∀ y ∈ nthD [] g x, y < g.length := by
          intro y hy
          rcases nthD_mem_or_default ([] : List ℕ) g x with hd | hm
          · rw [hd] at hy; simp at hy
          · exact hwf _ hm y hy
        have hs1 : add_neighbors g (f + 1) x (s ++ [x]) =
            (nthD [] g x).foldl
              (fun s x => if x ∈ s then s else add_neighbors g f x (s ++ [x]))
              (s ++ [x]) := rfl
        obtain ⟨⟨t1, ht1⟩, hnd1R, hbd1R, hmem1, hcl1⟩ :=
          ihf (nthD [] g x) (s ++ [x]) hLx hnd1 hbd1 (by simp; omega)
        rw [← hs1] at ht1 hnd1R hbd1R hmem1 hcl1
        set s1 := add_neighbors g (f + 1) x (s ++ [x]) with hs1def
        have hs1len : s.length + 1 ≤ s1.length := by
          rw [ht1]
          simp
        obtain ⟨⟨t2, ht2⟩, hnd2, hbd2, hmem2, hcl2⟩ :=
          ihL s1 (fun y hy => hL y (List.mem_cons_of_mem x hy)) hnd1R hbd1R (by omega)
        set R := L.foldl
          (fun s x => if x ∈ s then s else add_neighbors g (f + 1) x (s ++ [x])) s1
          with hRdef
        have hs1R : ∀ a ∈ s1, a ∈ R := by
          intro a ha
          rw [ht2]
          exact List.mem_append_left _ ha
        refine ⟨⟨x :: t1 ++ t2, by rw [ht2, ht1]; simp⟩, hnd2, hbd2, ?_, ?_⟩
        · intro y hy
          rcases List.mem_cons.1 hy with rfl | hy
          · refine hs1R y ?_
            rw [ht1]
            exact List.mem_append_left _ (List.mem_append_right _ (List.mem_singleton_self y))
          · exact hmem2 y hy
        · intro u hu hus v hv
          by_cases hu1 : u ∈ s1
          · by_cases hu0 : u ∈ s ++ [x]
            · have hux : u = x := by
                rcases List.mem_append.1 hu0 with h | h
                · exact absurd h hus
                · exact List.mem_singleton.1 h
              subst hux
              exact hs1R v (hmem1 v hv)
            · exact hs1R v (hcl1 u hu1 hu0 v hv)
          · exact hcl2 u hu hu1 v hv

/-- The component collected from a start vertex contains the vertex,
is duplicate free and bounded, and is closed under adjacency. -/
theorem add_neighbors_spec (g : List (List ℕ)) (hwf : graphWF g) (x0 : ℕ)
    (hx0 : x0 < g.length) :
    x0 ∈ add_neighbors g (g.length + 1) x0 [x0] ∧
    (add_neighbors g (g.length + 1) x0 [x0]).Nodup ∧
    (∀ a ∈ add_neighbors g (g.length + 1) x0 [x0], a < g.length) ∧
    (∀ u ∈ add_neighbors g (g.length + 1) x0 [x0], ∀ v ∈ nthD [] g u,
      v ∈ add_neighbors g (g.length + 1) x0 [x0]) := by
  have hLx : ∀ y ∈ nthD [] g x0, y < g.length := by
    intro y hy
    rcases nthD_mem_or_default ([] : List ℕ) g x0 with hd | hm
    · rw [hd] at hy; simp at hy
    · exact hwf _ hm y hy
  have heq : add_neighbors g (g.length + 1) x0 [x0] =
      (nthD [] g x0).foldl
        (fun s x => if x ∈ s then s else add_neighbors g g.length x (s ++ [x]))
        [x0] := rfl
  obtain ⟨⟨t, ht⟩, hnd, hbd, hmem, hcl⟩ :=
    an_fold_main g hwf g.length (nthD [] g x0) [x0] hLx (List.nodup_singleton x0)
      (by intro a ha; rw [List.mem_singleton.1 ha]; exact hx0) (by simp)
  rw [← heq] at ht hnd hbd hmem hcl
  refine ⟨by rw [ht]; exact List.mem_append_left _ (List.mem_singleton_self x0),
    hnd, hbd, ?_⟩
  intro u hu v hv
  by_cases hux : u = x0
  · subst hux
    exact hmem v hv
  · exact hcl u hu (by simp [hux]) v hv

theorem getLastD_mem {α : Type} (l : List α) (d : α) (h : l ≠ []) :
    l.getLastD d ∈ l := by
  induction l with
  | nil => exact absurd rfl h
  | cons x xs ih =>
    cases xs with
    | nil => simp
    | cons y ys =>
      rw [List.getLastD_cons]
      exact List.mem_cons_of_mem x (ih (by simp))

theorem eq_dropLast_append_getLastD {α : Type} (l : List α) (d : α) (h : l ≠ []) :
    l = l.dropLast ++ [l.getLastD d] := by
  induction l with
  | nil => exact absurd rfl h
  | cons x xs ih =>
    cases xs with
    | nil => rfl
    | cons y ys =>
      rw [List.getLastD_cons, List.dropLast_cons₂, List.cons_append]
      exact congrArg (x :: ·) (ih (by simp))

theorem mem_dropLast_of_ne {α : Type} (l : List α) (d : α) (y : α)
    (hy : y ∈ l) (hne : y ≠ l.getLastD d) : y ∈ l.dropLast := by
  have h : l ≠ [] := List.ne_nil_of_mem hy
  rw [eq_dropLast_append_getLastD l d h] at hy
  rcases List.mem_append.1 hy with hy | hy
  · exact hy
  · exact absurd (List.mem_singleton.1 hy) hne

theorem length_filter_drop_one {α : Type} (l : List α) (p : α → Bool) (a : α)
    (ha : a ∈ l) (hpa : p a = false) : (l.filter p).length + 1 ≤ l.length := by
  induction l with
  | nil => simp at ha
  | cons x xs ih =>
    rcases List.mem_cons.1 ha with rfl | ha2
    · have := List.length_filter_le p xs
      simp only [List.filter_cons, hpa]
      simp only [Bool.false_eq_true, if_false, List.length_cons]
      omega
    · cases hpx : p x <;> simp only [List.filter_cons, hpx] <;>
        simp only [if_true, Bool.false_eq_true, if_false, List.length_cons] <;>
        have := ih ha2 <;> omega

theorem length_filter_drop_two {α : Type} (l : List α) (p : α → Bool) (a b : α)
    (hnd : l.Nodup) (ha : a ∈ l) (hb : b ∈ l) (hab : a ≠ b)
    (hpa : p a = false) (hpb : p b = false) : (l.filter p).length + 2 ≤ l.length := by
  induction l with
  | nil => simp at ha
  | cons x xs ih =>
    have hnd2 := (List.nodup_cons.1 hnd).2
    rcases List.mem_cons.1 ha with rfl | ha2
    · have hbxs : b ∈ xs := by
        rcases List.mem_cons.1 hb with rfl | h
        · exact absurd rfl hab
        · exact h
      have := length_filter_drop_one xs p b hbxs hpb
      simp only [List.filter_cons, hpa]
      simp only [Bool.false_eq_true, if_false, List.length_cons]
      omega
    · rcases List.mem_cons.1 hb with rfl | hb2
      · have haxs : a ∈ xs := ha2
        have := length_filter_drop_one xs p a haxs hpa
        simp only [List.filter_cons, hpb]
        simp only [Bool.false_eq_true, if_false, List.length_cons]
        omega
      · cases hpx : p x <;> simp only [List.filter_cons, hpx] <;>
          simp only [if_true, Bool.false_eq_true, if_false, List.length_cons] <;>
          have := ih hnd2 ha2 hb2 <;> omega

/-- Every round of the component loop consumes at least the popped
index: the number of components never exceeds the number of
indices. -/
theorem cc_while_le (g : List (List ℕ)) :
    ∀ (fuel : ℕ) (us : List ℕ), (cc_while g fuel us).length ≤ us.length := by
  intro fuel
  induction fuel with
  | zero => intro us; simp [cc_while]
  | succ f ih =>
    intro us
    cases us with
    | nil => simp [cc_while]
    | cons a rest =>
      have hstep : cc_while g (f + 1) (a :: rest) =
          add_neighbors g (g.length + 1) ((a :: rest).getLastD 0)
              [(a :: rest).getLastD 0] ::
            cc_while g f ((a :: rest).dropLast.filter
              (fun y => y ∉ add_neighbors g (g.length + 1) ((a :: rest).getLastD 0)
                [(a :: rest).getLastD 0])) := rfl
      rw [hstep]
      simp only [List.length_cons]
      have h1 := ih ((a :: rest).dropLast.filter
        (fun y => y ∉ add_neighbors g (g.length + 1) ((a :: rest).getLastD 0)
          [(a :: rest).getLastD 0]))
      have h2 := List.length_filter_le
        (fun y => decide (y ∉ add_neighbors g (g.length + 1) ((a :: rest).getLastD 0)
          [(a :: rest).getLastD 0])) (a :: rest).dropLast
      have h3 : (a :: rest).dropLast.length = rest.length := by
        simp [List.length_dropLast]
      omega

/-- When the graph has a genuine undirected edge inside the unseen
set, the component loop returns strictly fewer components than
indices. -/
theorem cc_while_lt (g : List (List ℕ)) (hwf : graphWF g) :
    ∀ (fuel : ℕ) (us : List ℕ) (u v : ℕ),
      us.Nodup → (∀ a ∈ us, a < g.length) → us.length ≤ fuel →
      u ∈ us → v ∈ us → u ≠ v → v ∈ nthD [] g u → u ∈ nthD [] g v →
      (cc_while g fuel us).length < us.length := by
  intro fuel
  induction fuel with
  | zero =>
    intro us u v _ _ hlen hu _ _ _ _
    rw [List.length_eq_zero.1 (Nat.le_zero.1 hlen)] at hu
    simp at hu
  | succ f ih =>
    intro us u v hnd hbd hlen hu hv huv hadj1 hadj2
    have hne : us ≠ [] := List.ne_nil_of_mem hu
    obtain ⟨a, rest, rfl⟩ := List.exists_cons_of_ne_nil hne
    have hxmem : (a :: rest).getLastD 0 ∈ a :: rest := getLastD_mem _ 0 (by simp)
    have hxn : (a :: rest).getLastD 0 < g.length := hbd _ hxmem
    obtain ⟨hx0c, hcnd, hcbd, hclosed⟩ := add_neighbors_spec g hwf _ hxn
    have hstep : cc_while g (f + 1) (a :: rest) =
        add_neighbors g (g.length + 1) ((a :: rest).getLastD 0)
            [(a :: rest).getLastD 0] ::
          cc_while g f ((a :: rest).dropLast.filter
            (fun y => y ∉ add_neighbors g (g.length + 1) ((a :: rest).getLastD 0)
              [(a :: rest).getLastD 0])) := rfl
    rw [hstep]
    simp only [List.length_cons]
    have hdropnd : (a :: rest).dropLast.Nodup :=
      (List.dropLast_sublist (a :: rest)).nodup hnd
    have hdroplen : (a :: rest).dropLast.length = rest.length := by
      simp [List.length_dropLast]
    by_cases huc : u ∈ add_neighbors g (g.length + 1) ((a :: rest).getLastD 0)
        [(a :: rest).getLastD 0]
    · have hvc : v ∈ add_neighbors g (g.length + 1) ((a :: rest).getLastD 0)
          [(a :: rest).getLastD 0] := hclosed u huc v hadj1
      have hkey : ((a :: rest).dropLast.filter
          (fun y => y ∉ add_neighbors g (g.length + 1) ((a :: rest).getLastD 0)
            [(a :: rest).getLastD 0])).length + 1 ≤ rest.length := by
        by_cases hux : u = (a :: rest).getLastD 0
        · have hvx : v ≠ (a :: rest).getLastD 0 := fun h => huv (hux.trans h.symm)
          have hvdrop : v ∈ (a :: rest).dropLast := mem_dropLast_of_ne _ 0 v hv hvx
          have := length_filter_drop_one (a :: rest).dropLast
            (fun y => decide (y ∉ add_neighbors g (g.length + 1)
              ((a :: rest).getLastD 0) [(a :: rest).getLastD 0])) v hvdrop
            (by simp only [decide_eq_false_iff_not]; exact not_not_intro hvc)
          omega
        · by_cases hvx : v = (a :: rest).getLastD 0
          · have hudrop : u ∈ (a :: rest).dropLast := mem_dropLast_of_ne _ 0 u hu hux
            have := length_filter_drop_one (a :: rest).dropLast
              (fun y => decide (y ∉ add_neighbors g (g.length + 1)
                ((a :: rest).getLastD 0) [(a :: rest).getLastD 0])) u hudrop
              (by simp only [decide_eq_false_iff_not]; exact not_not_intro huc)
            omega
          · have hudrop : u ∈ (a :: rest).dropLast := mem_dropLast_of_ne _ 0 u hu hux
            have hvdrop : v ∈ (a :: rest).dropLast := mem_dropLast_of_ne _ 0 v hv hvx
            have := length_filter_drop_two (a :: rest).dropLast
              (fun y => decide (y ∉ add_neighbors g (g.length + 1)
                ((a :: rest).getLastD 0) [(a :: rest).getLastD 0])) u v hdropnd
              hudrop hvdrop huv
              (by simp only [decide_eq_false_iff_not]; exact not_not_intro huc)
              (by simp only [decide_eq_false_iff_not]; exact not_not_intro hvc)
            omega
      have hccle := cc_while_le g f ((a :: rest).dropLast.filter
        (fun y => y ∉ add_neighbors g (g.length + 1) ((a :: rest).getLastD 0)
          [(a :: rest).getLastD 0]))
      omega
    · have hvc : v ∉ add_neighbors g (g.length + 1) ((a :: rest).getLastD 0)
          [(a :: rest).getLastD 0] := fun h => huc (hclosed v h u hadj2)
      have hux : u ≠ (a :: rest).getLastD 0 := fun h => huc (h ▸ hx0c)
      have hvx : v ≠ (a :: rest).getLastD 0 := fun h => hvc (h ▸ hx0c)
      have humem : u ∈ (a :: rest).dropLast.filter
          (fun y => y ∉ add_neighbors g (g.length + 1) ((a :: rest).getLastD 0)
            [(a :: rest).getLastD 0]) := by
        rw [List.mem_filter]
        exact ⟨mem_dropLast_of_ne _ 0 u hu hux,
          by simp only [decide_eq_true_eq]; exact huc⟩
      have hvmem : v ∈ (a :: rest).dropLast.filter
          (fun y => y ∉ add_neighbors g (g.length + 1) ((a :: rest).getLastD 0)
            [(a :: rest).getLastD 0]) := by
        rw [List.mem_filter]
        exact ⟨mem_dropLast_of_ne _ 0 v hv hvx,
          by simp only [decide_eq_true_eq]; exact hvc⟩
      have hfnd : ((a :: rest).dropLast.filter
          (fun y => y ∉ add_neighbors g (g.length + 1) ((a :: rest).getLastD 0)
            [(a :: rest).getLastD 0])).Nodup :=
        (List.filter_sublist _).nodup hdropnd
      have hfbd : ∀ b ∈ (a :: rest).dropLast.filter
          (fun y => y ∉ add_neighbors g (g.length + 1) ((a :: rest).getLastD 0)
            [(a :: rest).getLastD 0]), b < g.length := by
        intro b hbm
        exact hbd b ((List.dropLast_sublist (a :: rest)).subset
          (List.mem_of_mem_filter hbm))
      have hflen : ((a :: rest).dropLast.filter
          (fun y => y ∉ add_neighbors g (g.length + 1) ((a :: rest).getLastD 0)
            [(a :: rest).getLastD 0])).length ≤ f := by
        have := List.length_filter_le
          (fun y => decide (y ∉ add_neighbors g (g.length + 1) ((a :: rest).getLastD 0)
            [(a :: rest).getLastD 0])) (a :: rest).dropLast
        simp only [List.length_cons] at hlen
        omega
      have := ih _ u v hfnd hfbd hflen humem hvmem huv hadj1 hadj2
      have hfle := List.length_filter_le
        (fun y => decide (y ∉ add_neighbors g (g.length + 1) ((a :: rest).getLastD 0)
          [(a :: rest).getLastD 0])) (a :: rest).dropLast
      omega

/-- On a well-formed graph with at least one genuine undirected edge,
connected_components returns strictly fewer components than there are
vertices. -/
theorem connected_components_lt (g : List (List ℕ)) (hwf : graphWF g)
    (u v : ℕ) (hun : u < g.length) (hvn : v < g.length) (huv : u ≠ v)
    (hadj1 : v ∈ nthD [] g u) (hadj2 : u ∈ nthD [] g v) :
    (connected_components g).length < g.length := by
  unfold connected_components
  have := cc_while_lt g hwf g.length (List.range g.length) u v
    (List.nodup_range g.length) (fun a ha => List.mem_range.1 ha)
    (by simp) (List.mem_range.2 hun) (List.mem_range.2 hvn) huv hadj1 hadj2
  simpa using this

/-- Termination engine for the merge loop: when the fuel exceeds the
number of points, the loop reaches a return.  The induction is on an
upper bound N for the point count; every merging round strictly
shrinks the point list. -/
theorem merge_coordinate_fuel {P O : Type} (distMat : List P → List (List ℚ))
    (center : List P → P) (cwp : List P → Option (ℕ × P))
    (wyckoffs : List (List O)) (tol : ℚ)
    (hDM : ∀ cs : List P, (distMat cs).length = cs.length ∧
      ∀ r ∈ distMat cs, r.length = cs.length) :
    ∀ (N : ℕ) (coor : List P), coor.length ≤ N →
      ∀ (fuel : ℕ) (lastIdx : Option (ℕ × P)), coor.length < fuel →
      (merge_coordinate distMat center cwp wyckoffs tol fuel coor lastIdx).isSome = true := by
  intro N
  induction N with
  | zero =>
    intro coor hle fuel lastIdx hfuel
    obtain ⟨f, rfl⟩ : ∃ f, fuel = f + 1 := ⟨fuel - 1, by omega⟩
    have hc : coor = [] := List.length_eq_zero.1 (Nat.le_zero.1 hle)
    subst hc
    have hd : distMat [] = [] := by
      have h1 := (hDM []).1
      simp at h1
      exact h1
    have hp : (find_short_dist (distMat []) tol).1 = [] := by
      rw [hd]
      rfl
    simp only [merge_coordinate]
    rw [if_neg (by simp [hp])]
    cases lastIdx <;> simp
  | succ N ih =>
    intro coor hle fuel lastIdx hfuel
    obtain ⟨f, rfl⟩ : ∃ f, fuel = f + 1 := ⟨fuel - 1, by omega⟩
    simp only [merge_coordinate]
    by_cases hp : (find_short_dist (distMat coor) tol).1 = []
    · rw [if_neg (by simp [hp])]
      cases lastIdx <;> simp
    · rw [if_pos (by simpa using hp)]
      by_cases hw : (wyckoffs.getLastD []).length < coor.length
      · rw [if_pos hw]
        cases hmatch : cwp ((connected_components
            (find_short_dist (distMat coor) tol).2).map
            (fun g => center (g.filterMap (fun i => nth? coor i)))) with
        | none => simp [hmatch]
        | some ip =>
          have hrow : ∀ r ∈ distMat coor, r.length = (distMat coor).length := by
            intro r hr
            rw [(hDM coor).1]
            exact (hDM coor).2 r hr
          have hglen : (find_short_dist (distMat coor) tol).2.length = coor.length := by
            rw [fsd_graph_length, (hDM coor).1]
          have hgwf : graphWF (find_short_dist (distMat coor) tol).2 := by
            intro l hl x hx
            rw [hglen, ← (hDM coor).1]
            exact fsd_graph_wf (distMat coor) tol hrow l hl x hx
          obtain ⟨u, v, huv, hun, hvn, hadj1, hadj2⟩ :=
            fsd_edge (distMat coor) tol hrow hp
          have hlt : (connected_components
              (find_short_dist (distMat coor) tol).2).length < coor.length := by
            have := connected_components_lt _ hgwf u v
              (by rw [hglen, ← (hDM coor).1]; exact hun)
              (by rw [hglen, ← (hDM coor).1]; exact hvn) huv hadj1 hadj2
            rw [hglen] at this
            exact this
          have hmlen : ((connected_components
              (find_short_dist (distMat coor) tol).2).map
              (fun g => center (g.filterMap (fun i => nth? coor i)))).length <
              coor.length := by
            rw [List.length_map]
            exact hlt
          exact ih _ (by omega) f (some ip) (by omega)
      · rw [if_neg hw]
        simp

/-- C6: in merge_coordinate, every iteration that performs a merge
collapses each connected component of the near-neighbor graph to one
centroid and at least one component holds two or more points, so the
merged list is strictly shorter than the input; consequently, for
every finite orbit, fuel exceeding the orbit size suffices: the loop
returns an accepted point set or a failure within that many rounds.
The centroid routine, the Wyckoff lookup and the distance matrix are
arbitrary parameters, with the distance matrix required only to be
square of the right size. -/
theorem claim6_merge_terminates {P O : Type} (distMat : List P → List (List ℚ))
    (center : List P → P) (cwp : List P → Option (ℕ × P))
    (wyckoffs : List (List O)) (tol : ℚ)
    (hDM : ∀ cs : List P, (distMat cs).length = cs.length ∧
      ∀ r ∈ distMat cs, r.length = cs.length)
    (coor : List P) (lastIdx : Option (ℕ × P)) :
    ((find_short_dist (distMat coor) tol).1 ≠ [] →
      ((connected_components ((find_short_dist (distMat coor) tol).2)).map
        (fun g => center (g.filterMap (fun i => nth? coor i)))).length <
        coor.length) ∧
    (merge_coordinate distMat center cwp wyckoffs tol (coor.length + 1)
      coor lastIdx).isSome = true := by
  constructor
  · intro hp
    have hrow : ∀ r ∈ distMat coor, r.length = (distMat coor).length := by
      intro r hr
      rw [(hDM coor).1]
      exact (hDM coor).2 r hr
    have hglen : (find_short_dist (distMat coor) tol).2.length = coor.length := by
      rw [fsd_graph_length, (hDM coor).1]
    have hgwf : graphWF (find_short_dist (distMat coor) tol).2 := by
      intro l hl x hx
      rw [hglen, ← (hDM coor).1]
      exact fsd_graph_wf (distMat coor) tol hrow l hl x hx
    obtain ⟨u, v, huv, hun, hvn, hadj1, hadj2⟩ :=
      fsd_edge (distMat coor) tol hrow hp
    have := connected_components_lt _ hgwf u v
      (by rw [hglen, ← (hDM coor).1]; exact hun)
      (by rw [hglen, ← (hDM coor).1]; exact hvn) huv hadj1 hadj2
    rw [hglen] at this
    rw [List.length_map]
    exact this
  · exact merge_coordinate_fuel distMat center cwp wyckoffs tol hDM
      coor.length coor le_rfl (coor.length + 1) lastIdx (by omega)

/-- C6 witness: a two-point orbit with an all-zero distance matrix
model, a trivial centroid and a Wyckoff lookup that always fails
terminates within three rounds. -/
theorem claim6_witness :
    (merge_coordinate (fun cs => cs.map fun _ => cs.map fun _ => (0 : ℚ))
      (fun l => l.headD 0) (fun _ => Option.none) ([[0]] : List (List ℕ)) 1
      3 [7, 9] Option.none).isSome = true :=
  (claim6_merge_terminates (fun cs => cs.map fun _ => cs.map fun _ => (0 : ℚ))
    (fun l => l.headD 0) (fun _ => Option.none) ([[0]] : List (List ℕ)) 1
    (by
      intro cs
      constructor
      · simp
      · intro r hr
        rcases List.mem_map.1 hr with ⟨x, hx, rfl⟩
        simp)
    [7, 9] Option.none).2

/-- C10: whenever either coordinate set has at most one point,
check_distance returns True unconditionally, and the result does not
depend on the distance function at all, so no distance is computed. -/
theorem claim10_check_distance_short (P : Type)
    (dm dm2 : List P → List P → List (List ℚ))
    (coord1 coord2 : List P) (tols1 tols2 : List ℚ)
    (h : coord1.length ≤ 1 ∨ coord2.length ≤ 1) :
    check_distance dm coord1 coord2 tols1 tols2 = true ∧
    check_distance dm coord1 coord2 tols1 tols2 =
      check_distance dm2 coord1 coord2 tols1 tols2 := by
  unfold check_distance
  rw [if_pos h, if_pos h]
  exact ⟨rfl, rfl⟩

/-- C10 witness: a single already-placed point against a two-point
orbit is accepted regardless of the distance function. -/
theorem claim10_witness :
    check_distance (fun _ _ => [[0]]) ([3] : List ℕ) [5, 7] [2] [2, 2] = true ∧
    check_distance (fun _ _ => [[0]]) ([3] : List ℕ) [5, 7] [2] [2, 2] =
      check_distance (fun _ _ => [[100]]) ([3] : List ℕ) [5, 7] [2] [2, 2] :=
  claim10_check_distance_short ℕ (fun _ _ => [[0]]) (fun _ _ => [[100]])
    [3] [5, 7] [2] [2, 2] (by decide)

end PyXtal
